import Mathlib

/-!
WebSocket tunnelling of goproxy: frame decoder, upgrade detection, relay.

Shallow embedding of `websocket.go` (package `goproxy`) and of the inspection
tap of `examples/goproxy-websockets/main.go`.

Conventions of the embedding.

* A Go `byte` is a `Fin 256`; a `[]byte` is a `List Byte`.  `len(data)` is the
  length of the list as a Go `int`.  A slice is modelled with `cap = len`.
* A Go `int` is a signed 64-bit two's-complement integer.  Values of type `int`
  are kept as `Int`; every addition the code performs is wrapped by `wrap64`,
  and the shift-and-or of line 142 is computed on the 64-bit pattern
  (`shl64`, `|||` on `Nat`) and read back as a signed value by `toInt64`.
* A run-time panic of Go is an explicit outcome, next to the two ways the
  function returns (`(frame, nil)` and `(nil, err)`).
-/

namespace goproxy

/-! ## Machine integers and slices -/

/-- A Go `byte`. -/
abbrev Byte := Fin 256

/-- Signed reading of a 64-bit pattern. -/
def toInt64 (u : Nat) : Int :=
  if u % 2 ^ 64 < 2 ^ 63 then ((u % 2 ^ 64 : Nat) : Int) else ((u % 2 ^ 64 : Nat) : Int) - 2 ^ 64

/-- The result of an `int` operation whose mathematical value is `x`,
    wrapped to 64 bits. -/
def wrap64 (x : Int) : Int := (x + 2 ^ 63) % 2 ^ 64 - 2 ^ 63

/-- Go `x << s` on the 64-bit pattern `x`. -/
def shl64 (x s : Nat) : Nat := (x <<< s) % 2 ^ 64

/-- The run-time faults of Go that the decoder and the inspection tap can
    raise. -/
inductive Fault where
  | indexOutOfRange
  | sliceBoundsOutOfRange
  | makesliceLenOutOfRange
  | nilPointerDereference
  deriving DecidableEq, Repr

/-- Outcome of a Go call returning `(*T, error)`: the value with a nil error,
    a nil value with an error, or a run-time panic. -/
inductive Outcome (α : Type) where
  | ok (a : α)
  | error (msg : String)
  | panic (f : Fault)
  deriving DecidableEq, Repr

/-- Sequencing of outcomes: an error or a panic ends the computation. -/
def Outcome.bind {α β : Type} (x : Outcome α) (f : α → Outcome β) : Outcome β :=
  match x with
  | .ok a => f a
  | .error m => .error m
  | .panic p => .panic p

/-- Go `len(data)`. -/
def len (data : List Byte) : Int := (data.length : Int)

/-- Go `data[k]`: faults when `k` is negative or not below `len(data)`. -/
def index (data : List Byte) (k : Int) : Outcome Byte :=
  if 0 ≤ k then
    match data[k.toNat]? with
    | some b => .ok b
    | none => .panic .indexOutOfRange
  else .panic .indexOutOfRange

/-- Go `data[lo:hi]`: faults unless `0 ≤ lo ≤ hi ≤ cap(data)`, with
    `cap(data) = len(data)`. -/
def slice (data : List Byte) (lo hi : Int) : Outcome (List Byte) :=
  if 0 ≤ lo ∧ lo ≤ hi ∧ hi ≤ len data then
    .ok ((data.take hi.toNat).drop lo.toNat)
  else .panic .sliceBoundsOutOfRange

/-! ## The frame decoder (`websocket.go`, lines 110-165) -/

/-- The Go struct `WebSocketFrame`. -/
structure WebSocketFrame where
  Fin : Bool
  Opcode : Int
  Payload : List Byte
  deriving DecidableEq, Repr

/-- Lines 131-144: the payload length and the offset after the extended
    length field, from the 7-bit length `payloadLength` of byte 1. -/
def extendedLength (data : List Byte) (payloadLength : Int) : Outcome (Int × Int) :=
  if payloadLength = 126 then
    if len data < 4 then .error "frame is too short for 126"
    else
      (index data 2).bind fun d2 =>
      (index data 3).bind fun d3 =>
      .ok (toInt64 (shl64 d2.val 8 ||| d3.val), wrap64 (2 + 2))
  else if payloadLength = 127 then
    if len data < 10 then .error "frame is too short for 127"
    else
      (index data 2).bind fun d2 =>
      (index data 3).bind fun d3 =>
      (index data 4).bind fun d4 =>
      (index data 5).bind fun d5 =>
      (index data 6).bind fun d6 =>
      (index data 7).bind fun d7 =>
      (index data 8).bind fun d8 =>
      (index data 9).bind fun d9 =>
      .ok (toInt64 (shl64 d2.val 56 ||| shl64 d3.val 48 ||| shl64 d4.val 40 ||| shl64 d5.val 32
                    ||| shl64 d6.val 24 ||| shl64 d7.val 16 ||| shl64 d8.val 8 ||| d9.val),
           wrap64 (2 + 8))
  else .ok (payloadLength, 2)

/-- Lines 154-156: the loop
    `for i := 0; i < payloadLength; i++ { Payload[i] = data[offset+i] ^ maskKey[i%4] }`,
    with `n` the number of iterations still to run and `i` the loop counter.
    The result is the slice `Payload[i:]` as filled by the remaining
    iterations. -/
def unmaskLoop (data maskKey : List Byte) (offset : Int) : Nat → Nat → Outcome (List Byte)
  | 0, _ => .ok []
  | n + 1, i =>
    (index data (wrap64 (offset + (i : Int)))).bind fun b =>
    (index maskKey ((i : Int) % 4)).bind fun k =>
    (unmaskLoop data maskKey offset n (i + 1)).bind fun rest =>
    .ok ((b ^^^ k) :: rest)

/-- Lines 146-162: the mask key and the payload.  `make([]byte, n)` faults
    on a negative `n`; memory is not bounded in the model, so that a
    non-negative `n` is accepted and the loop then faults at the first index
    past the buffer. -/
def readPayload (data : List Byte) (mask : Bool) (offset payloadLength : Int) :
    Outcome (List Byte) :=
  if mask then
    if len data < wrap64 (wrap64 (offset + 4) + payloadLength) then
      .error "frame is too short for masking"
    else
      (slice data offset (wrap64 (offset + 4))).bind fun maskKey =>
      if payloadLength < 0 then .panic .makesliceLenOutOfRange
      else unmaskLoop data maskKey (wrap64 (offset + 4)) payloadLength.toNat 0
  else
    if len data < wrap64 (offset + payloadLength) then
      .error "frame is too short for payload"
    else slice data offset (wrap64 (offset + payloadLength))

/-- The Go function `ParseWebSocketFrame`. -/
def ParseWebSocketFrame (data : List Byte) : Outcome WebSocketFrame :=
  if len data < 2 then .error "frame is too short"
  else
    (index data 0).bind fun d0 =>
    (index data 1).bind fun d1 =>
    let fin := (d0.val &&& 0x80) != 0
    let opcode : Int := ((d0.val &&& 0x0F : Nat) : Int)
    let mask := (d1.val &&& 0x80) != 0
    let payloadLength : Int := ((d1.val &&& 0x7F : Nat) : Int)
    (extendedLength data payloadLength).bind fun lo =>
    (readPayload data mask lo.2 lo.1).bind fun payload =>
    .ok { Fin := fin, Opcode := opcode, Payload := payload }


/-! ## Header fields, as the wire format states them -/

/-- Byte `k` of a buffer, `0` past its end. -/
def byteAt (data : List Byte) (k : Nat) : Nat := (data.getD k 0).val

/-- The FIN bit: the top bit of byte 0. -/
def finBit (data : List Byte) : Bool := decide (128 ≤ byteAt data 0)

/-- The opcode: the low four bits of byte 0. -/
def opcodeField (data : List Byte) : Nat := byteAt data 0 % 16

/-- The mask flag: the top bit of byte 1. -/
def maskFlag (data : List Byte) : Bool := decide (128 ≤ byteAt data 1)

/-- The 7-bit length field: the low seven bits of byte 1. -/
def lengthField (data : List Byte) : Nat := byteAt data 1 % 128

/-- The `n` bytes of a buffer from position `k` on. -/
def bytesAt (data : List Byte) (k n : Nat) : List Nat :=
  (List.range n).map fun j => byteAt data (k + j)

/-- The unsigned big-endian value of a byte sequence. -/
def bigEndian (bs : List Nat) : Nat := bs.foldl (fun acc b => acc * 256 + b) 0

/-- The number of header and extended-length bytes: 2, 4 or 10. -/
def headerSize (data : List Byte) : Nat :=
  if lengthField data = 126 then 4 else if lengthField data = 127 then 10 else 2

/-- The payload length the header declares: the 7-bit field when it is at
    most 125, the 16-bit big-endian value of bytes 2-3 when it is 126, the
    64-bit big-endian value of bytes 2-9 when it is 127. -/
def declaredLength (data : List Byte) : Nat :=
  if lengthField data = 126 then bigEndian (bytesAt data 2 2)
  else if lengthField data = 127 then bigEndian (bytesAt data 2 8)
  else lengthField data

/-- The number of bytes the header calls for: the header and extended
    length, four more when the mask flag is set, and the declared payload
    length. -/
def frameSize (data : List Byte) : Nat :=
  headerSize data + (if maskFlag data then 4 else 0) + declaredLength data

/-! ## Construction of a frame, as the wire format states it -/

/-- A 4-byte masking key. -/
structure MaskKey where
  k0 : Byte
  k1 : Byte
  k2 : Byte
  k3 : Byte
  deriving DecidableEq, Repr

/-- The key as it stands in the frame. -/
def MaskKey.toList (key : MaskKey) : List Byte := [key.k0, key.k1, key.k2, key.k3]

/-- Byte `i mod 4` of the key. -/
def MaskKey.byte (key : MaskKey) (i : Nat) : Byte :=
  match i % 4 with
  | 0 => key.k0
  | 1 => key.k1
  | 2 => key.k2
  | _ => key.k3

/-- XOR-masking of a payload whose first byte has index `i` in the frame's
    payload: byte `j` is XOR-ed with key byte `j mod 4`. -/
def maskFrom (key : MaskKey) : Nat → List Byte → List Byte
  | _, [] => []
  | i, b :: bs => (b ^^^ key.byte i) :: maskFrom key (i + 1) bs

/-- The low eight bits of a number, as a byte. -/
def byteOfNat (n : Nat) : Byte := ⟨n % 256, Nat.mod_lt n (by decide)⟩

/-- The 7-bit length field and the extended-length bytes for a payload of
    `n` bytes: the length itself up to 125, 126 and two big-endian bytes up to
    65535, 127 and eight big-endian bytes above. -/
def lengthBytes (n : Nat) : Nat × List Byte :=
  if n ≤ 125 then (n, [])
  else if n ≤ 65535 then (126, [byteOfNat (n / 2 ^ 8), byteOfNat n])
  else (127, [byteOfNat (n / 2 ^ 56), byteOfNat (n / 2 ^ 48), byteOfNat (n / 2 ^ 40),
    byteOfNat (n / 2 ^ 32), byteOfNat (n / 2 ^ 24), byteOfNat (n / 2 ^ 16),
    byteOfNat (n / 2 ^ 8), byteOfNat n])

/-- The correctly constructed frame: byte 0 is the FIN bit and the opcode,
    byte 1 the mask flag and the 7-bit length, then the extended length, the
    key when masked, and the payload, XOR-masked with the key when masked. -/
def encodeFrame (fin : Bool) (opcode : Nat) (key : Option MaskKey) (payload : List Byte) :
    List Byte :=
  [byteOfNat ((if fin then 128 else 0) + opcode),
   byteOfNat ((if key.isSome then 128 else 0) + (lengthBytes payload.length).1)]
  ++ (lengthBytes payload.length).2
  ++ (match key with
      | none => payload
      | some k => k.toList ++ maskFrom k 0 payload)

/-! ## The inspection tap of the example proxy
(`examples/goproxy-websockets/main.go`, lines 60-86) -/

/-- The `error` result of `src.Read`: nil, `io.EOF`, or another error. -/
inductive ReadErr where
  | nil
  | eof
  | other
  deriving DecidableEq, Repr

/-- One result `n, err := src.Read(buf)`: the `n` bytes the call stored in
    `buf[0:n]`, and its error. -/
structure ReadResult where
  bytes : List Byte
  err : ReadErr
  deriving DecidableEq, Repr

/-- How a run of the tap ends, with the bytes written to `dst` so far: the
    handler returns, a run-time panic unwinds it, or it waits in `src.Read`
    for a result that never comes. -/
inductive PumpOutcome where
  | returned (written : List Byte)
  | panicked (f : Fault) (written : List Byte)
  | blocked (written : List Byte)
  deriving DecidableEq, Repr

/-- The buffer after `src.Read(buf)` stored `chunk` in `buf[0:len(chunk)]`. -/
def readInto (buf chunk : List Byte) : List Byte := chunk ++ buf.drop chunk.length

/-- The `for` loop of the handler (lines 62-84).  `reads` are the results of
    the successive calls of `src.Read`, `dstOk w` tells whether the call
    number `w` of `dst.Write` succeeds, `buf` is the 32 KB buffer, `out` the
    bytes written so far. -/
def WssHandlerLoop (dstOk : Nat → Bool) :
    List ReadResult → List Byte → Nat → List Byte → PumpOutcome
  | [], _, _, out => .blocked out
  | r :: rs, buf, w, out =>
    let buf1 := readInto buf r.bytes
    if r.err = .other then .returned out
    else
      match ParseWebSocketFrame buf1 with
      | .panic f => .panicked f out
      | .error _ =>
        -- `tt` is nil
        if 0 < r.bytes.length then .panicked .nilPointerDereference out
        else if r.err = .eof then .returned out
        else WssHandlerLoop dstOk rs buf1 w out
      | .ok _ =>
        if 0 < r.bytes.length then
          if dstOk w then WssHandlerLoop dstOk rs buf1 (w + 1) (out ++ r.bytes)
          else .returned out
        else if r.err = .eof then .returned out
        else WssHandlerLoop dstOk rs buf1 w out

/-- The handler assigned to `proxy.WssHandler`: a zeroed buffer of
    `32*1024` bytes, then the loop. -/
def WssHandler (dstOk : Nat → Bool) (reads : List ReadResult) : PumpOutcome :=
  WssHandlerLoop dstOk reads (List.replicate (32 * 1024) 0) 0 []

/-! ## The relay (`websocket.go`, lines 167-175) -/

/-- The statement the goroutine that runs `proxyWebsocket` is at. -/
inductive RelayPc where
  | spawnFirst
  | spawnSecond
  | receive
  | returned
  deriving DecidableEq, Repr

/-- A goroutine started by a `go cp(...)` statement. -/
inductive Task where
  | notStarted
  | running
  | finished
  deriving DecidableEq, Repr

/-- The state of a call of `proxyWebsocket`: the caller's position, the
    values buffered in `errChan` (capacity 2), and the two tasks
    `cp(dest, source)` and `cp(source, dest)`. -/
structure RelayState where
  pc : RelayPc
  errChan : List Unit
  first : Task
  second : Task
  deriving DecidableEq, Repr

/-- The state after `errChan := make(chan error, 2)` and `cp := proxy.WssHandler`. -/
def RelayState.init : RelayState :=
  { pc := .spawnFirst, errChan := [], first := .notStarted, second := .notStarted }

/-- One step of one goroutine.  `cp` receives only the two connections, so
    a task has no access to `errChan`; the `go` statement discards what `cp`
    returns.  The only operation on `errChan` is the receive of line 174,
    which proceeds when the channel holds a value. -/
inductive RelayStep : RelayState → RelayState → Prop where
  | goFirst (s : RelayState) (h : s.pc = .spawnFirst) :
      RelayStep s { s with pc := .spawnSecond, first := .running }
  | goSecond (s : RelayState) (h : s.pc = .spawnSecond) :
      RelayStep s { s with pc := .receive, second := .running }
  | firstEnds (s : RelayState) (h : s.first = .running) :
      RelayStep s { s with first := .finished }
  | secondEnds (s : RelayState) (h : s.second = .running) :
      RelayStep s { s with second := .finished }
  | receive (s : RelayState) (v : Unit) (rest : List Unit) (h : s.pc = .receive)
      (hc : s.errChan = v :: rest) :
      RelayStep s { s with pc := .returned, errChan := rest }

/-- The states a call of `proxyWebsocket` can reach. -/
inductive RelayReachable : RelayState → Prop where
  | init : RelayReachable RelayState.init
  | step (s t : RelayState) (hs : RelayReachable s) (ht : RelayStep s t) : RelayReachable t

/-- Every buffer the tap hands to `ParseWebSocketFrame` decodes: the buffer
    after each read of the chunks `cs` holds a whole frame at its start, and
    the decoder does not panic on the buffer left at end-of-stream. -/
def Decodes : List (List Byte) → List Byte → Prop
  | [], buf => ∀ f, ParseWebSocketFrame (readInto buf []) ≠ .panic f
  | c :: cs, buf =>
    (∃ frame, ParseWebSocketFrame (readInto buf c) = .ok frame) ∧ Decodes cs (readInto buf c)

/-! ## The handshake and the two entry points (`websocket.go`, lines 29-108) -/

/-- What the collaborators of one tunnel attempt answer.  Each field is the
    `error` a call returns (`none` is Go's nil), or whether a capability is
    there. -/
structure TunnelEnv where
  /-- Error of `tls.Dial`, respectively `proxy.connectDial`. -/
  dialErr : Option String
  /-- Whether `w.(http.Hijacker)` succeeds. -/
  hijackSupported : Bool
  /-- Error of `hj.Hijack()`. -/
  hijackErr : Option String
  /-- Error of `req.Write(targetSiteConn)`. -/
  reqWriteErr : Option String
  /-- Error of `http.ReadResponse(targetTLSReader, req)`. -/
  readResponseErr : Option String
  /-- Error of `resp.Write(clientConn)`. -/
  respWriteErr : Option String

/-- The calls a tunnel attempt makes on its collaborators, in order. -/
inductive Event where
  | dial
  | hijack
  | warn (msg : String)
  | writeRequestToTarget
  | readResponseFromTarget
  | filterResponse
  | writeResponseToClient
  | proxyWebsocket
  | closeTarget
  deriving DecidableEq, Repr

/-- The method `websocketHandshake`: the error it returns and the calls it
    made. -/
def websocketHandshake (env : TunnelEnv) : Option String × List Event :=
  match env.reqWriteErr with
  | some err => (some err, [.writeRequestToTarget, .warn "Error writing upgrade request"])
  | none =>
    match env.readResponseErr with
    | some err =>
      (some err, [.writeRequestToTarget, .readResponseFromTarget,
        .warn "Error reading handhsake response"])
    | none =>
      match env.respWriteErr with
      | some err =>
        (some err, [.writeRequestToTarget, .readResponseFromTarget, .filterResponse,
          .writeResponseToClient, .warn "Error writing handshake response"])
      | none =>
        (none, [.writeRequestToTarget, .readResponseFromTarget, .filterResponse,
          .writeResponseToClient])

/-- How an entry point ends: it returns, it panics (line 63), or it is in
    its call of `proxyWebsocket`. -/
inductive ServeEnd where
  | returned
  | panicked
  | relaying
  deriving DecidableEq, Repr

/-- The method `serveWebsocketTLS`: the calls it made, the deferred
    `targetConn.Close()` last when the method returns or panics. -/
def serveWebsocketTLS (env : TunnelEnv) : ServeEnd × List Event :=
  match env.dialErr with
  | some _ => (.returned, [.dial, .warn "Error dialing target site"])
  | none =>
    let hs := websocketHandshake env
    match hs.1 with
    | some _ => (.returned, [.dial] ++ hs.2 ++ [.warn "Websocket handshake error", .closeTarget])
    | none => (.relaying, [.dial] ++ hs.2 ++ [.proxyWebsocket])

/-- The method `serveWebsocket`. -/
def serveWebsocket (env : TunnelEnv) : ServeEnd × List Event :=
  match env.dialErr with
  | some _ => (.returned, [.dial, .warn "Error dialing target site"])
  | none =>
    if env.hijackSupported then
      match env.hijackErr with
      | some _ => (.returned, [.dial, .hijack, .warn "Hijack error", .closeTarget])
      | none =>
        let hs := websocketHandshake env
        match hs.1 with
        | some _ =>
          (.returned, [.dial, .hijack] ++ hs.2 ++ [.warn "Websocket handshake error", .closeTarget])
        | none => (.relaying, [.dial, .hijack] ++ hs.2 ++ [.proxyWebsocket])
    else (.panicked, [.dial, .closeTarget])

/-! ## Upgrade detection (`websocket.go`, lines 13-27) -/

/-- A Go string, as the sequence of runes that ranging over it yields. -/
abbrev GoString := List Char

/-- A Go `http.Header`: the values stored under a key, none when the key is
    absent. -/
abbrev Header := String → List GoString

/-- Go `unicode.IsSpace`. -/
def isSpace (c : Char) : Bool :=
  (9 ≤ c.toNat && c.toNat ≤ 13) || c.toNat = 0x20 || c.toNat = 0x85 || c.toNat = 0xA0
    || c.toNat = 0x1680 || (0x2000 ≤ c.toNat && c.toNat ≤ 0x200A) || c.toNat = 0x2028
    || c.toNat = 0x2029 || c.toNat = 0x202F || c.toNat = 0x205F || c.toNat = 0x3000

/-- Go `strings.TrimSpace`. -/
def TrimSpace (s : GoString) : GoString :=
  ((s.dropWhile isSpace).reverse.dropWhile isSpace).reverse

/-- Go `strings.Split(s, sep)` for a separator of one rune. -/
def Split : GoString → Char → List GoString
  | [], _ => [[]]
  | c :: cs, sep =>
    if c = sep then [] :: Split cs sep
    else
      match Split cs sep with
      | [] => [[c]]
      | t :: ts => (c :: t) :: ts

/-- The representative of a rune under simple Unicode case folding, for the
    runes whose folding class meets ASCII: a capital letter and its small
    letter, the Kelvin sign (U+212A) with `k`, the long s (U+017F) with `s`.
    Every other rune stands for itself. -/
def foldKey (c : Char) : Char :=
  if 65 ≤ c.toNat ∧ c.toNat ≤ 90 then Char.ofNat (c.toNat + 32)
  else if c.toNat = 0x212A then Char.ofNat 107
  else if c.toNat = 0x17F then Char.ofNat 115
  else c

/-- Go `strings.EqualFold(s, t)`, exact when one of the two strings is ASCII
    (as the `value` of `headerContains` is at both calls). -/
def EqualFold (s t : GoString) : Bool := s.map foldKey == t.map foldKey

/-- The Go function `headerContains`. -/
def headerContains (header : Header) (name : String) (value : GoString) : Bool :=
  (header name).any fun v =>
    (Split v ',').any fun s =>
      EqualFold value (TrimSpace s)

/-- The Go function `isWebSocketRequest`, on the request's header. -/
def isWebSocketRequest (header : Header) : Bool :=
  headerContains header "Connection" "upgrade".toList &&
    headerContains header "Upgrade" "websocket".toList

/-- The string that lists the tokens `ts`, separated by commas. -/
def joinComma : List GoString → GoString
  | [] => []
  | [t] => t
  | t :: ts => t ++ ',' :: joinComma ts

/-- The header value `v` has a comma-separated token that, after trimming
    surrounding whitespace, equals `w` case-insensitively: `v` is a list of
    comma-free tokens separated by commas, and one of them is whitespace, then
    a string that is `w` letter for letter up to case, then whitespace. -/
def HasToken (v w : GoString) : Prop :=
  ∃ ts : List GoString, ts ≠ [] ∧ (∀ t ∈ ts, ',' ∉ t) ∧ joinComma ts = v ∧
    ∃ t ∈ ts, ∃ a u b, t = a ++ u ++ b ∧ (∀ c ∈ a, isSpace c = true) ∧
      (∀ c ∈ b, isSpace c = true) ∧ List.Forall₂ (fun c d => foldKey c = foldKey d) u w

/-- The header `Connection: Upgrade, keep-alive` and `Upgrade: websocket`. -/
def exampleUpgrade : Header := fun name =>
  if name = "Connection" then ["Upgrade, keep-alive".toList]
  else if name = "Upgrade" then ["websocket".toList] else []

/-- The header `Connection: keep-alive` alone. -/
def exampleKeepAlive : Header := fun name =>
  if name = "Connection" then ["keep-alive".toList] else []

/-- The header `Connection: UPGRADE` and `Upgrade: WebSocket`. -/
def exampleCaseVaried : Header := fun name =>
  if name = "Connection" then ["UPGRADE".toList]
  else if name = "Upgrade" then ["WebSocket".toList] else []

/-! # Theorems -/
@[simp] theorem Outcome.bind_ok {α β : Type} (a : α) (f : α → Outcome β) :
    (Outcome.ok a).bind f = f a := rfl
@[simp] theorem Outcome.bind_error {α β : Type} (m : String) (f : α → Outcome β) :
    (Outcome.error m : Outcome α).bind f = .error m := rfl
@[simp] theorem Outcome.bind_panic {α β : Type} (p : Fault) (f : α → Outcome β) :
    (Outcome.panic p : Outcome α).bind f = .panic p := rfl

theorem Outcome.bind_eq_ok {α β : Type} {x : Outcome α} {f : α → Outcome β} {b : β} :
    x.bind f = .ok b ↔ ∃ a, x = .ok a ∧ f a = .ok b := by
  cases x <;> simp

theorem wrap64_of_range {x : Int} (h0 : -2 ^ 63 ≤ x) (h1 : x < 2 ^ 63) : wrap64 x = x := by
  unfold wrap64; omega

theorem wrap64_nonneg {x : Int} (h0 : 0 ≤ x) (h1 : x < 2 ^ 64) (h : 0 ≤ wrap64 x) :
    x < 2 ^ 63 := by
  unfold wrap64 at h; omega

theorem index_eq_ok {data : List Byte} {k : Int} {b : Byte} :
    index data k = .ok b ↔ 0 ≤ k ∧ data[k.toNat]? = some b := by
  unfold index
  split
  · rename_i h
    cases hb : data[k.toNat]? <;> simp [h]
  · rename_i h; simp [h]

theorem index_natCast {data : List Byte} {k : Nat} {b : Byte} :
    index data (k : Int) = .ok b ↔ data[k]? = some b := by
  rw [index_eq_ok]; simp

theorem index_append {data : List Byte} {k : Int} {b : Byte} (e : List Byte)
    (h : index data k = .ok b) : index (data ++ e) k = .ok b := by
  rw [index_eq_ok] at h ⊢
  refine ⟨h.1, ?_⟩
  have hlt : k.toNat < data.length := by
    by_contra hc
    rw [List.getElem?_eq_none (by omega)] at h
    exact absurd h.2 (by simp)
  rw [List.getElem?_append_left hlt]; exact h.2

theorem slice_eq_ok {data : List Byte} {lo hi : Int} {s : List Byte} :
    slice data lo hi = .ok s ↔
      (0 ≤ lo ∧ lo ≤ hi ∧ hi ≤ len data) ∧ s = (data.take hi.toNat).drop lo.toNat := by
  unfold slice
  split
  · rename_i h; simp [h, eq_comm]
  · rename_i h; simp [h]

theorem slice_append {data : List Byte} {lo hi : Int} {s : List Byte} (e : List Byte)
    (h : slice data lo hi = .ok s) : slice (data ++ e) lo hi = .ok s := by
  rw [slice_eq_ok] at h ⊢
  obtain ⟨⟨h0, h1, h2⟩, hs⟩ := h
  unfold len at h2 ⊢
  refine ⟨⟨h0, h1, ?_⟩, ?_⟩
  · simp only [List.length_append, Nat.cast_add]; omega
  · rw [hs, List.take_append_of_le_length (by omega)]

theorem unmaskLoop_append (data maskKey e : List Byte) (offset : Int) :
    ∀ (n i : Nat) (l : List Byte), unmaskLoop data maskKey offset n i = .ok l →
      unmaskLoop (data ++ e) maskKey offset n i = .ok l := by
  intro n
  induction n with
  | zero => intro i l h; simpa [unmaskLoop] using h
  | succ n ih =>
    intro i l h
    simp only [unmaskLoop, Outcome.bind_eq_ok] at h ⊢
    obtain ⟨b, hb, k, hk, rest, hrest, hl⟩ := h
    exact ⟨b, index_append e hb, k, hk, rest, ih _ _ hrest, hl⟩

theorem len_append_le (data e : List Byte) : len data ≤ len (data ++ e) := by
  unfold len; simp

theorem extendedLength_append {data : List Byte} {pl : Int} {r : Int × Int} (e : List Byte)
    (h : extendedLength data pl = .ok r) : extendedLength (data ++ e) pl = .ok r := by
  have hle := len_append_le data e
  unfold extendedLength at h ⊢
  by_cases h126 : pl = 126
  · simp only [h126, ↓reduceIte] at h ⊢
    by_cases h4 : len data < 4
    · simp [h4] at h
    · have h4e : ¬ len (data ++ e) < 4 := by omega
      simp only [h4, h4e, ↓reduceIte, Outcome.bind_eq_ok] at h ⊢
      obtain ⟨d2, h2, d3, h3, hr⟩ := h
      exact ⟨d2, index_append e h2, d3, index_append e h3, hr⟩
  · simp only [h126, ↓reduceIte] at h ⊢
    by_cases h127 : pl = 127
    · simp only [h127, ↓reduceIte] at h ⊢
      by_cases h10 : len data < 10
      · simp [h10] at h
      · have h10e : ¬ len (data ++ e) < 10 := by omega
        simp only [h10, h10e, ↓reduceIte, Outcome.bind_eq_ok] at h ⊢
        obtain ⟨d2, h2, d3, h3, d4, h4, d5, h5, d6, h6, d7, h7, d8, h8, d9, h9, hr⟩ := h
        exact ⟨d2, index_append e h2, d3, index_append e h3, d4, index_append e h4,
          d5, index_append e h5, d6, index_append e h6, d7, index_append e h7,
          d8, index_append e h8, d9, index_append e h9, hr⟩
    · simpa only [h127, ↓reduceIte] using h

theorem readPayload_append {data : List Byte} {mask : Bool} {offset pl : Int} {p : List Byte}
    (e : List Byte) (h : readPayload data mask offset pl = .ok p) :
    readPayload (data ++ e) mask offset pl = .ok p := by
  have hle := len_append_le data e
  unfold readPayload at h ⊢
  cases mask
  · simp only [Bool.false_eq_true, ↓reduceIte] at h ⊢
    by_cases hc : len data < wrap64 (offset + pl)
    · simp [hc] at h
    · have hce : ¬ len (data ++ e) < wrap64 (offset + pl) := by omega
      simp only [hc, hce, ↓reduceIte] at h ⊢
      exact slice_append e h
  · simp only [↓reduceIte] at h ⊢
    by_cases hc : len data < wrap64 (wrap64 (offset + 4) + pl)
    · simp [hc] at h
    · have hce : ¬ len (data ++ e) < wrap64 (wrap64 (offset + 4) + pl) := by omega
      simp only [hc, hce, ↓reduceIte, Outcome.bind_eq_ok] at h ⊢
      obtain ⟨key, hkey, h⟩ := h
      refine ⟨key, slice_append e hkey, ?_⟩
      by_cases hneg : pl < 0
      · simp [hneg] at h
      · simp only [hneg, ↓reduceIte] at h ⊢
        exact unmaskLoop_append _ _ _ _ _ _ _ h

theorem ParseWebSocketFrame_append {b : List Byte} {f : WebSocketFrame} (e : List Byte)
    (h : ParseWebSocketFrame b = .ok f) : ParseWebSocketFrame (b ++ e) = .ok f := by
  have hle := len_append_le b e
  unfold ParseWebSocketFrame at h ⊢
  by_cases h2 : len b < 2
  · simp [h2] at h
  · have h2e : ¬ len (b ++ e) < 2 := by omega
    simp only [h2, h2e, ↓reduceIte, Outcome.bind_eq_ok] at h ⊢
    obtain ⟨d0, h0, d1, h1, lo, hlo, p, hp, hf⟩ := h
    exact ⟨d0, index_append e h0, d1, index_append e h1, lo, extendedLength_append e hlo,
      p, readPayload_append e hp, hf⟩

/-! ## Bit-level facts -/

theorem byte_xor_cancel (a b : Byte) : (a ^^^ b) ^^^ b = a := by
  apply Fin.ext
  show ((a.val ^^^ b.val) % 256 ^^^ b.val) % 256 = a.val
  have h1 : a.val ^^^ b.val < 256 := Nat.xor_lt_two_pow (n := 8) a.isLt b.isLt
  rw [Nat.mod_eq_of_lt h1, Nat.xor_assoc, Nat.xor_self, Nat.xor_zero, Nat.mod_eq_of_lt a.isLt]

theorem and_7F (x : Nat) : x &&& 0x7F = x % 128 := Nat.and_pow_two_sub_one_eq_mod x 7

theorem and_0F (x : Nat) : x &&& 0x0F = x % 16 := Nat.and_pow_two_sub_one_eq_mod x 4

set_option maxRecDepth 100000 in
theorem and_80_ne_zero : ∀ b : Byte, ((b.val &&& 0x80) != 0) = decide (128 ≤ b.val) := by
  decide

theorem shl_or (a s b : Nat) (hb : b < 2 ^ s) : a <<< s ||| b = a * 2 ^ s + b := by
  rw [Nat.shiftLeft_eq, Nat.mul_comm, Nat.mul_add_lt_is_or hb]

theorem be16_eq (d2 d3 : Byte) : shl64 d2.val 8 ||| d3.val = d2.val * 256 + d3.val := by
  have h2 := d2.isLt
  have h3 := d3.isLt
  have e : shl64 d2.val 8 = d2.val <<< 8 := by
    unfold shl64; rw [Nat.shiftLeft_eq, Nat.mod_eq_of_lt (by omega)]
  rw [e, shl_or _ _ _ (by omega)]
  omega

theorem be64_eq (d2 d3 d4 d5 d6 d7 d8 d9 : Byte) :
    shl64 d2.val 56 ||| shl64 d3.val 48 ||| shl64 d4.val 40 ||| shl64 d5.val 32
      ||| shl64 d6.val 24 ||| shl64 d7.val 16 ||| shl64 d8.val 8 ||| d9.val
    = d2.val * 2 ^ 56 + d3.val * 2 ^ 48 + d4.val * 2 ^ 40 + d5.val * 2 ^ 32
      + d6.val * 2 ^ 24 + d7.val * 2 ^ 16 + d8.val * 2 ^ 8 + d9.val := by
  have h2 := d2.isLt
  have h3 := d3.isLt
  have h4 := d4.isLt
  have h5 := d5.isLt
  have h6 := d6.isLt
  have h7 := d7.isLt
  have h8 := d8.isLt
  have h9 := d9.isLt
  have e2 : shl64 d2.val 56 = d2.val <<< 56 := by
    unfold shl64; rw [Nat.shiftLeft_eq, Nat.mod_eq_of_lt (by omega)]
  have e3 : shl64 d3.val 48 = d3.val * 2 ^ 48 := by
    unfold shl64; rw [Nat.shiftLeft_eq, Nat.mod_eq_of_lt (by omega)]
  have e4 : shl64 d4.val 40 = d4.val * 2 ^ 40 := by
    unfold shl64; rw [Nat.shiftLeft_eq, Nat.mod_eq_of_lt (by omega)]
  have e5 : shl64 d5.val 32 = d5.val * 2 ^ 32 := by
    unfold shl64; rw [Nat.shiftLeft_eq, Nat.mod_eq_of_lt (by omega)]
  have e6 : shl64 d6.val 24 = d6.val * 2 ^ 24 := by
    unfold shl64; rw [Nat.shiftLeft_eq, Nat.mod_eq_of_lt (by omega)]
  have e7 : shl64 d7.val 16 = d7.val * 2 ^ 16 := by
    unfold shl64; rw [Nat.shiftLeft_eq, Nat.mod_eq_of_lt (by omega)]
  have e8 : shl64 d8.val 8 = d8.val * 2 ^ 8 := by
    unfold shl64; rw [Nat.shiftLeft_eq, Nat.mod_eq_of_lt (by omega)]
  rw [e2, e3, e4, e5, e6, e7, e8]
  rw [shl_or _ _ _ (by omega)]
  have s1 : d2.val * 2 ^ 56 + d3.val * 2 ^ 48 = (d2.val * 2 ^ 8 + d3.val) <<< 48 := by
    rw [Nat.shiftLeft_eq]; omega
  rw [s1, shl_or _ _ _ (by omega)]
  have s2 : (d2.val * 2 ^ 8 + d3.val) * 2 ^ 48 + d4.val * 2 ^ 40
      = (d2.val * 2 ^ 16 + d3.val * 2 ^ 8 + d4.val) <<< 40 := by
    rw [Nat.shiftLeft_eq]; omega
  rw [s2, shl_or _ _ _ (by omega)]
  have s3 : (d2.val * 2 ^ 16 + d3.val * 2 ^ 8 + d4.val) * 2 ^ 40 + d5.val * 2 ^ 32
      = (d2.val * 2 ^ 24 + d3.val * 2 ^ 16 + d4.val * 2 ^ 8 + d5.val) <<< 32 := by
    rw [Nat.shiftLeft_eq]; omega
  rw [s3, shl_or _ _ _ (by omega)]
  have s4 : (d2.val * 2 ^ 24 + d3.val * 2 ^ 16 + d4.val * 2 ^ 8 + d5.val) * 2 ^ 32
        + d6.val * 2 ^ 24
      = (d2.val * 2 ^ 32 + d3.val * 2 ^ 24 + d4.val * 2 ^ 16 + d5.val * 2 ^ 8 + d6.val)
        <<< 24 := by
    rw [Nat.shiftLeft_eq]; omega
  rw [s4, shl_or _ _ _ (by omega)]
  have s5 : (d2.val * 2 ^ 32 + d3.val * 2 ^ 24 + d4.val * 2 ^ 16 + d5.val * 2 ^ 8 + d6.val)
        * 2 ^ 24 + d7.val * 2 ^ 16
      = (d2.val * 2 ^ 40 + d3.val * 2 ^ 32 + d4.val * 2 ^ 24 + d5.val * 2 ^ 16
          + d6.val * 2 ^ 8 + d7.val) <<< 16 := by
    rw [Nat.shiftLeft_eq]; omega
  rw [s5, shl_or _ _ _ (by omega)]
  have s6 : (d2.val * 2 ^ 40 + d3.val * 2 ^ 32 + d4.val * 2 ^ 24 + d5.val * 2 ^ 16
          + d6.val * 2 ^ 8 + d7.val) * 2 ^ 16 + d8.val * 2 ^ 8
      = (d2.val * 2 ^ 48 + d3.val * 2 ^ 40 + d4.val * 2 ^ 32 + d5.val * 2 ^ 24
          + d6.val * 2 ^ 16 + d7.val * 2 ^ 8 + d8.val) <<< 8 := by
    rw [Nat.shiftLeft_eq]; omega
  rw [s6, shl_or _ _ _ (by omega)]
  omega

/-! ## What a successful decode says about the buffer -/

theorem unmaskLoop_ok_inv (data maskKey : List Byte) (offset : Int) :
    ∀ (n i : Nat) (l : List Byte), unmaskLoop data maskKey offset n i = .ok l →
      l.length = n ∧ ∀ j, j < n → ∃ b k, index data (wrap64 (offset + ((i + j : Nat) : Int))) = .ok b
        ∧ index maskKey (((i + j : Nat) : Int) % 4) = .ok k ∧ l[j]? = some (b ^^^ k) := by
  intro n
  induction n with
  | zero =>
    intro i l h
    simp only [unmaskLoop, Outcome.ok.injEq] at h
    subst h
    exact ⟨rfl, fun j hj => absurd hj (Nat.not_lt_zero j)⟩
  | succ n ih =>
    intro i l h
    simp only [unmaskLoop, Outcome.bind_eq_ok, Outcome.ok.injEq] at h
    obtain ⟨b, hb, k, hk, rest, hrest, hl⟩ := h
    obtain ⟨hlen, hall⟩ := ih (i + 1) rest hrest
    subst hl
    refine ⟨by simp [hlen], ?_⟩
    intro j hj
    cases j with
    | zero => exact ⟨b, k, by simpa using hb, by simpa using hk, by simp⟩
    | succ j =>
      obtain ⟨b', k', hb', hk', hl'⟩ := hall j (by omega)
      refine ⟨b', k', ?_, ?_, by simpa using hl'⟩
      · have : i + 1 + j = i + (j + 1) := by omega
        rw [← this]; exact hb'
      · have : i + 1 + j = i + (j + 1) := by omega
        rw [← this]; exact hk'

theorem byteAt_of_getElem? {data : List Byte} {k : Nat} {b : Byte} (h : data[k]? = some b) :
    byteAt data k = b.val := by
  unfold byteAt
  rw [List.getD_eq_getElem?_getD, h]; rfl

theorem byteAt_of_index {data : List Byte} {k : Nat} {b : Byte}
    (h : index data (k : Int) = .ok b) : byteAt data k = b.val :=
  byteAt_of_getElem? (index_natCast.mp h)

theorem lt_length_of_getElem? {data : List Byte} {k : Nat} {b : Byte} (h : data[k]? = some b) :
    k < data.length := by
  by_contra hc
  rw [List.getElem?_eq_none (by omega)] at h
  exact absurd h (by simp)

theorem readPayload_ok_inv {data : List Byte} {mask : Bool} {off : Nat} {pl : Int}
    {p : List Byte} (hoff : off ≤ 10) (hlo : -2 ^ 63 ≤ pl) (hhi : pl < 2 ^ 63)
    (h : readPayload data mask (off : Int) pl = .ok p) :
    0 ≤ pl ∧ p.length = pl.toNat ∧
    (mask = true → off + 4 + pl.toNat ≤ data.length ∧
      ∀ j, j < pl.toNat → ∃ b k, data[off + 4 + j]? = some b ∧ data[off + j % 4]? = some k ∧
        p[j]? = some (b ^^^ k)) ∧
    (mask = false → off + pl.toNat ≤ data.length ∧ p = (data.drop off).take pl.toNat) := by
  unfold readPayload at h
  cases mask
  · simp only [Bool.false_eq_true, ↓reduceIte] at h
    by_cases hc : len data < wrap64 ((off : Int) + pl)
    · simp [hc] at h
    · simp only [hc, ↓reduceIte, slice_eq_ok] at h
      obtain ⟨⟨_, h1, h2⟩, hp⟩ := h
      unfold len at h2
      have hw : wrap64 ((off : Int) + pl) = (off : Int) + pl := by
        unfold wrap64 at h1 ⊢; omega
      rw [hw] at h1 h2 hp
      have hpl : 0 ≤ pl := by omega
      have e1 : ((off : Int) + pl).toNat = off + pl.toNat := by omega
      have e2 : ((off : Int)).toNat = off := by omega
      rw [e1, e2, List.drop_take] at hp
      have e3 : off + pl.toNat - off = pl.toNat := by omega
      rw [e3] at hp
      refine ⟨hpl, ?_, by simp, fun _ => ⟨by omega, hp⟩⟩
      rw [hp, List.length_take, List.length_drop]; omega
  · simp only [↓reduceIte] at h
    by_cases hc : len data < wrap64 (wrap64 ((off : Int) + 4) + pl)
    · simp [hc] at h
    · simp only [hc, ↓reduceIte, Outcome.bind_eq_ok, slice_eq_ok] at h
      obtain ⟨key, ⟨⟨_, _, hk2⟩, hkey⟩, h⟩ := h
      have hw4 : wrap64 ((off : Int) + 4) = (off : Int) + 4 := by unfold wrap64; omega
      rw [hw4] at hk2 hkey h
      unfold len at hk2
      by_cases hneg : pl < 0
      · simp [hneg] at h
      · simp only [hneg, ↓reduceIte] at h
        obtain ⟨hlen, hall⟩ := unmaskLoop_ok_inv _ _ _ _ _ _ h
        have hpl : 0 ≤ pl := by omega
        have hidx : ∀ j, j < pl.toNat → ∃ b k, data[off + 4 + j]? = some b ∧
            data[off + j % 4]? = some k ∧ p[j]? = some (b ^^^ k) := by
          intro j hj
          obtain ⟨b, k, hb, hk, hpj⟩ := hall j hj
          rw [index_eq_ok] at hb hk
          obtain ⟨hb0, hb⟩ := hb
          obtain ⟨_, hk⟩ := hk
          have hwj : wrap64 ((off : Int) + 4 + ((0 + j : Nat) : Int)) = ((off + 4 + j : Nat) : Int) := by
            unfold wrap64 at hb0 ⊢; omega
          rw [hwj, Int.toNat_natCast] at hb
          have hkj : (((0 + j : Nat) : Int) % 4).toNat = j % 4 := by omega
          have hoff4 : ((off : Int) + 4).toNat = off + 4 := by omega
          rw [hkj, hkey, hoff4, Int.toNat_natCast, List.getElem?_drop,
            List.getElem?_take_of_lt (by omega)] at hk
          exact ⟨b, k, hb, hk, hpj⟩
        refine ⟨hpl, hlen, fun _ => ⟨?_, hidx⟩, by simp⟩
        by_cases hz : pl.toNat = 0
        · omega
        · obtain ⟨b, _, hb, _, _⟩ := hidx (pl.toNat - 1) (by omega)
          have := lt_length_of_getElem? hb
          omega

theorem toInt64_of_lt {u : Nat} (h : u < 2 ^ 63) : toInt64 u = (u : Int) := by
  unfold toInt64
  have e : u % 2 ^ 64 = u := Nat.mod_eq_of_lt (by omega)
  rw [e, if_pos h]

theorem toInt64_range (u : Nat) : -2 ^ 63 ≤ toInt64 u ∧ toInt64 u < 2 ^ 63 := by
  unfold toInt64
  have : u % 2 ^ 64 < 2 ^ 64 := Nat.mod_lt _ (by norm_num)
  split <;> omega

theorem toInt64_nonneg {u : Nat} (hu : u < 2 ^ 64) (h : 0 ≤ toInt64 u) :
    (toInt64 u).toNat = u := by
  unfold toInt64 at h ⊢
  have e : u % 2 ^ 64 = u := Nat.mod_eq_of_lt hu
  rw [e] at h ⊢
  split at h
  · rename_i hlt; rw [if_pos hlt]; omega
  · omega

theorem bytesAt_two (data : List Byte) (k : Nat) :
    bytesAt data k 2 = [byteAt data k, byteAt data (k + 1)] := rfl

theorem bytesAt_eight (data : List Byte) (k : Nat) :
    bytesAt data k 8 = [byteAt data k, byteAt data (k + 1), byteAt data (k + 2),
      byteAt data (k + 3), byteAt data (k + 4), byteAt data (k + 5), byteAt data (k + 6),
      byteAt data (k + 7)] := rfl

theorem extendedLength_ok_inv {data : List Byte} {r : Int × Int}
    (h : extendedLength data ((lengthField data : Nat) : Int) = .ok r) :
    r = (toInt64 (declaredLength data), ((headerSize data : Nat) : Int)) ∧
      declaredLength data < 2 ^ 64 := by
  have hl7 : lengthField data < 128 := Nat.mod_lt _ (by norm_num)
  unfold extendedLength at h
  unfold declaredLength headerSize
  by_cases h126 : lengthField data = 126
  · have h126i : ((lengthField data : Nat) : Int) = 126 := by omega
    simp only [h126i, ↓reduceIte] at h
    simp only [h126, ↓reduceIte]
    by_cases h4 : len data < 4
    · simp [h4] at h
    · simp only [h4, ↓reduceIte, Outcome.bind_eq_ok, Outcome.ok.injEq] at h
      obtain ⟨d2, h2, d3, h3, hr⟩ := h
      have e2 := byteAt_of_index (k := 2) h2
      have e3 := byteAt_of_index (k := 3) h3
      have hbe : bigEndian (bytesAt data 2 2) = shl64 d2.val 8 ||| d3.val := by
        rw [be16_eq, bytesAt_two, e2, e3]; simp [bigEndian]
      have hd2 := d2.isLt
      have hd3 := d3.isLt
      refine ⟨?_, ?_⟩
      · rw [hbe, ← hr]; rfl
      · rw [hbe, be16_eq]; omega
  · have h126i : ¬ ((lengthField data : Nat) : Int) = 126 := by omega
    simp only [h126i, ↓reduceIte] at h
    simp only [h126, ↓reduceIte]
    by_cases h127 : lengthField data = 127
    · have h127i : ((lengthField data : Nat) : Int) = 127 := by omega
      simp only [h127i, ↓reduceIte] at h
      simp only [h127, ↓reduceIte]
      by_cases h10 : len data < 10
      · simp [h10] at h
      · simp only [h10, ↓reduceIte, Outcome.bind_eq_ok, Outcome.ok.injEq] at h
        obtain ⟨d2, h2, d3, h3, d4, h4, d5, h5, d6, h6, d7, h7, d8, h8, d9, h9, hr⟩ := h
        have e2 := byteAt_of_index (k := 2) h2
        have e3 := byteAt_of_index (k := 3) h3
        have e4 := byteAt_of_index (k := 4) h4
        have e5 := byteAt_of_index (k := 5) h5
        have e6 := byteAt_of_index (k := 6) h6
        have e7 := byteAt_of_index (k := 7) h7
        have e8 := byteAt_of_index (k := 8) h8
        have e9 := byteAt_of_index (k := 9) h9
        have hbe : bigEndian (bytesAt data 2 8) =
            shl64 d2.val 56 ||| shl64 d3.val 48 ||| shl64 d4.val 40 ||| shl64 d5.val 32
              ||| shl64 d6.val 24 ||| shl64 d7.val 16 ||| shl64 d8.val 8 ||| d9.val := by
          rw [be64_eq, bytesAt_eight, e2, e3, e4, e5, e6, e7, e8, e9]
          simp only [bigEndian, List.foldl]
          omega
        have hd2 := d2.isLt
        have hd3 := d3.isLt
        have hd4 := d4.isLt
        have hd5 := d5.isLt
        have hd6 := d6.isLt
        have hd7 := d7.isLt
        have hd8 := d8.isLt
        have hd9 := d9.isLt
        refine ⟨?_, ?_⟩
        · rw [hbe, ← hr]; rfl
        · rw [hbe, be64_eq]; omega
    · have h127i : ¬ ((lengthField data : Nat) : Int) = 127 := by omega
      simp only [h127i, ↓reduceIte, Outcome.ok.injEq] at h
      simp only [h127, ↓reduceIte]
      refine ⟨?_, by omega⟩
      rw [← h, toInt64_of_lt (by omega)]; rfl

theorem ParseWebSocketFrame_ok_inv {data : List Byte} {f : WebSocketFrame}
    (h : ParseWebSocketFrame data = .ok f) :
    2 ≤ data.length ∧ f.Fin = finBit data ∧ f.Opcode = ((opcodeField data : Nat) : Int) ∧
      declaredLength data < 2 ^ 64 ∧
      readPayload data (maskFlag data) ((headerSize data : Nat) : Int)
        (toInt64 (declaredLength data)) = .ok f.Payload := by
  unfold ParseWebSocketFrame at h
  by_cases h2 : len data < 2
  · simp [h2] at h
  · simp only [h2, ↓reduceIte, Outcome.bind_eq_ok, Outcome.ok.injEq] at h
    obtain ⟨d0, h0, d1, h1, lo, hlo, p, hp, hf⟩ := h
    have e0 := byteAt_of_index (k := 0) h0
    have e1 := byteAt_of_index (k := 1) h1
    have hl7 : d1.val &&& 0x7F = lengthField data := by
      unfold lengthField; rw [e1, and_7F]
    rw [hl7] at hlo
    obtain ⟨hr, hd⟩ := extendedLength_ok_inv hlo
    have hmask : ((d1.val &&& 0x80) != 0) = maskFlag data := by
      unfold maskFlag; rw [e1, and_80_ne_zero]
    rw [hmask, hr] at hp
    unfold len at h2
    refine ⟨by omega, ?_, ?_, hd, ?_⟩
    · rw [← hf]; unfold finBit; rw [e0, ← and_80_ne_zero]
    · rw [← hf]; unfold opcodeField; rw [e0, ← and_0F]
    · rw [← hf]; exact hp

/-! ## Decoding a buffer that holds a whole frame -/

theorem index_of_lt {data : List Byte} {k : Nat} (h : k < data.length) :
    index data (k : Int) = .ok (data.getD k 0) := by
  rw [index_natCast, List.getD_eq_getElem?_getD, List.getElem?_eq_getElem h]; rfl

theorem extendedLength_ok_of {data : List Byte} (hs : headerSize data ≤ data.length) :
    extendedLength data ((lengthField data : Nat) : Int) =
      .ok (toInt64 (declaredLength data), ((headerSize data : Nat) : Int)) := by
  have hl7 : lengthField data < 128 := Nat.mod_lt _ (by norm_num)
  unfold extendedLength
  unfold headerSize at hs
  unfold declaredLength headerSize
  by_cases h126 : lengthField data = 126
  · have h126i : ((lengthField data : Nat) : Int) = 126 := by omega
    simp only [h126, ↓reduceIte] at hs
    have h4 : ¬ len data < 4 := by unfold len; omega
    simp only [h126i, ↓reduceIte]
    simp only [h126, h4, ↓reduceIte]
    have i2 : index data 2 = .ok (data.getD 2 0) := index_of_lt (k := 2) (by omega)
    have i3 : index data 3 = .ok (data.getD 3 0) := index_of_lt (k := 3) (by omega)
    rw [i2, i3]
    simp only [Outcome.bind_ok]
    rw [be16_eq, bytesAt_two]
    simp [bigEndian, byteAt, wrap64]
  · have h126i : ¬ ((lengthField data : Nat) : Int) = 126 := by omega
    simp only [h126, ↓reduceIte] at hs
    by_cases h127 : lengthField data = 127
    · have h127i : ((lengthField data : Nat) : Int) = 127 := by omega
      simp only [h127, ↓reduceIte] at hs
      have h10 : ¬ len data < 10 := by unfold len; omega
      simp only [h126i, h127i, ↓reduceIte]
      simp only [h126, h127, h10, ↓reduceIte]
      have i2 : index data 2 = .ok (data.getD 2 0) := index_of_lt (k := 2) (by omega)
      have i3 : index data 3 = .ok (data.getD 3 0) := index_of_lt (k := 3) (by omega)
      have i4 : index data 4 = .ok (data.getD 4 0) := index_of_lt (k := 4) (by omega)
      have i5 : index data 5 = .ok (data.getD 5 0) := index_of_lt (k := 5) (by omega)
      have i6 : index data 6 = .ok (data.getD 6 0) := index_of_lt (k := 6) (by omega)
      have i7 : index data 7 = .ok (data.getD 7 0) := index_of_lt (k := 7) (by omega)
      have i8 : index data 8 = .ok (data.getD 8 0) := index_of_lt (k := 8) (by omega)
      have i9 : index data 9 = .ok (data.getD 9 0) := index_of_lt (k := 9) (by omega)
      rw [i2, i3, i4, i5, i6, i7, i8, i9]
      simp only [Outcome.bind_ok]
      have hw : wrap64 (2 + 8) = ((10 : Nat) : Int) := by unfold wrap64; omega
      have hbe : bigEndian (bytesAt data 2 8) =
          (data.getD 2 0).val * 2 ^ 56 + (data.getD 3 0).val * 2 ^ 48
            + (data.getD 4 0).val * 2 ^ 40 + (data.getD 5 0).val * 2 ^ 32
            + (data.getD 6 0).val * 2 ^ 24 + (data.getD 7 0).val * 2 ^ 16
            + (data.getD 8 0).val * 2 ^ 8 + (data.getD 9 0).val := by
        rw [bytesAt_eight]
        simp only [bigEndian, List.foldl, byteAt, Nat.reduceAdd]
        omega
      rw [be64_eq, hbe, hw]
      rfl
    · have h127i : ¬ ((lengthField data : Nat) : Int) = 127 := by omega
      simp only [h126i, h127i, ↓reduceIte]
      simp only [h126, h127, ↓reduceIte]
      rw [toInt64_of_lt (by omega)]; rfl

theorem ParseWebSocketFrame_ok_of {data p : List Byte} (hs : headerSize data ≤ data.length)
    (hp : readPayload data (maskFlag data) ((headerSize data : Nat) : Int)
      (toInt64 (declaredLength data)) = .ok p) :
    ParseWebSocketFrame data =
      .ok { Fin := finBit data, Opcode := ((opcodeField data : Nat) : Int), Payload := p } := by
  have h2 : 2 ≤ headerSize data := by
    unfold headerSize; split <;> [omega; (split <;> omega)]
  have hl : ¬ len data < 2 := by unfold len; omega
  unfold ParseWebSocketFrame
  simp only [hl, ↓reduceIte]
  have i0 : index data 0 = .ok (data.getD 0 0) := index_of_lt (k := 0) (by omega)
  have i1 : index data 1 = .ok (data.getD 1 0) := index_of_lt (k := 1) (by omega)
  rw [i0, i1]
  simp only [Outcome.bind_ok]
  have hl7 : (data.getD 1 0).val &&& 0x7F = lengthField data := by
    unfold lengthField byteAt; rw [and_7F]
  rw [hl7, extendedLength_ok_of hs]
  simp only [Outcome.bind_ok]
  have hmask : (((data.getD 1 0).val &&& 0x80) != 0) = maskFlag data := by
    unfold maskFlag byteAt; rw [and_80_ne_zero]
  rw [hmask, hp]
  simp only [Outcome.bind_ok]
  have hfin : (((data.getD 0 0).val &&& 0x80) != 0) = finBit data := by
    unfold finBit byteAt; rw [and_80_ne_zero]
  have hop : (data.getD 0 0).val &&& 0x0F = opcodeField data := by
    unfold opcodeField byteAt; rw [and_0F]
  rw [hfin, hop]

theorem index_key (key : MaskKey) (i : Nat) :
    index key.toList (((i : Nat) : Int) % 4) = .ok (key.byte i) := by
  have e : ((i : Nat) : Int) % 4 = ((i % 4 : Nat) : Int) := by omega
  rw [e, index_natCast]
  unfold MaskKey.byte MaskKey.toList
  have h4 : i % 4 < 4 := Nat.mod_lt _ (by norm_num)
  generalize i % 4 = m at h4
  interval_cases m <;> rfl

theorem unmaskLoop_maskFrom (key : MaskKey) (off : Nat) :
    ∀ (payload : List Byte) (i : Nat) (done tail : List Byte), done.length = off + i →
      off + i + payload.length < 2 ^ 63 →
      unmaskLoop (done ++ maskFrom key i payload ++ tail) key.toList (off : Int)
        payload.length i = .ok payload := by
  intro payload
  induction payload with
  | nil => intro i done tail _ _; rfl
  | cons b bs ih =>
    intro i done tail hd hlt
    simp only [List.length_cons] at hlt
    simp only [maskFrom, List.length_cons, unmaskLoop]
    have hw : wrap64 ((off : Int) + (i : Int)) = ((off + i : Nat) : Int) := by
      unfold wrap64; omega
    have hidx : index (done ++ (b ^^^ key.byte i) :: maskFrom key (i + 1) bs ++ tail)
        (wrap64 ((off : Int) + (i : Int))) = .ok (b ^^^ key.byte i) := by
      rw [hw, index_natCast, List.append_assoc, List.getElem?_append_right (by omega)]
      simp [hd]
    rw [hidx, index_key]
    simp only [Outcome.bind_ok]
    have hsplit : done ++ (b ^^^ key.byte i) :: maskFrom key (i + 1) bs ++ tail
        = (done ++ [b ^^^ key.byte i]) ++ maskFrom key (i + 1) bs ++ tail := by simp
    rw [hsplit, ih (i + 1) (done ++ [b ^^^ key.byte i]) tail (by simp [hd]; omega) (by omega)]
    simp only [Outcome.bind_ok, byte_xor_cancel]

theorem readPayload_masked_ok (key : MaskKey) (pre payload tail : List Byte)
    (hpre : pre.length ≤ 10)
    (hlen : (pre ++ key.toList ++ maskFrom key 0 payload ++ tail).length < 2 ^ 63) :
    readPayload (pre ++ key.toList ++ maskFrom key 0 payload ++ tail) true
      ((pre.length : Nat) : Int) ((payload.length : Nat) : Int) = .ok payload := by
  have hml : ∀ (l : List Byte) (i : Nat), (maskFrom key i l).length = l.length := by
    intro l
    induction l with
    | nil => intro i; rfl
    | cons b bs ih => intro i; simp [maskFrom, ih]
  have hk : key.toList.length = 4 := rfl
  simp only [List.length_append, hml, hk] at hlen
  unfold readPayload
  have hw4 : wrap64 (((pre.length : Nat) : Int) + 4) = ((pre.length + 4 : Nat) : Int) := by
    unfold wrap64; omega
  have hw : wrap64 (((pre.length + 4 : Nat) : Int) + ((payload.length : Nat) : Int))
      = ((pre.length + 4 + payload.length : Nat) : Int) := by
    unfold wrap64; omega
  have hc : ¬ len (pre ++ key.toList ++ maskFrom key 0 payload ++ tail)
      < ((pre.length + 4 + payload.length : Nat) : Int) := by
    unfold len; simp only [List.length_append, hml, hk]; omega
  have hs : slice (pre ++ key.toList ++ maskFrom key 0 payload ++ tail)
      ((pre.length : Nat) : Int) ((pre.length + 4 : Nat) : Int) = .ok key.toList := by
    rw [slice_eq_ok]
    refine ⟨⟨by omega, by omega, ?_⟩, ?_⟩
    · unfold len; simp only [List.length_append, hml, hk]; omega
    · rw [Int.toNat_natCast, Int.toNat_natCast, List.append_assoc, List.append_assoc,
        List.take_append_eq_append_take, List.take_of_length_le (by omega)]
      have e4 : pre.length + 4 - pre.length = 4 := by omega
      rw [e4, List.drop_append_of_le_length (by simp), List.drop_length, List.nil_append,
        List.take_append_of_le_length (by simp [hk]), List.take_of_length_le (by simp [hk])]
  have hneg : ¬ ((payload.length : Nat) : Int) < 0 := by omega
  simp only [↓reduceIte, hw4, hw, hc, hs, Outcome.bind_ok, hneg, Int.toNat_natCast]
  have := unmaskLoop_maskFrom key (pre.length + 4) payload 0 (pre ++ key.toList) tail
    (by simp [hk]) (by omega)
  exact this

theorem readPayload_unmasked_ok (pre payload tail : List Byte) (hpre : pre.length ≤ 10)
    (hlen : (pre ++ payload ++ tail).length < 2 ^ 63) :
    readPayload (pre ++ payload ++ tail) false ((pre.length : Nat) : Int)
      ((payload.length : Nat) : Int) = .ok payload := by
  simp only [List.length_append] at hlen
  unfold readPayload
  have hw : wrap64 (((pre.length : Nat) : Int) + ((payload.length : Nat) : Int))
      = ((pre.length + payload.length : Nat) : Int) := by
    unfold wrap64; omega
  have hc : ¬ len (pre ++ payload ++ tail) < ((pre.length + payload.length : Nat) : Int) := by
    unfold len; simp only [List.length_append]; omega
  simp only [Bool.false_eq_true, ↓reduceIte, hw, hc]
  rw [slice_eq_ok]
  refine ⟨⟨by omega, by omega, ?_⟩, ?_⟩
  · unfold len; simp only [List.length_append]; omega
  · rw [Int.toNat_natCast, Int.toNat_natCast, List.append_assoc,
      List.take_append_eq_append_take, List.take_of_length_le (by omega)]
    have e : pre.length + payload.length - pre.length = payload.length := by omega
    rw [e, List.drop_append_of_le_length (by simp), List.drop_length, List.nil_append,
      List.take_append_of_le_length (by simp), List.take_of_length_le (by simp)]

/-! ## The header of a constructed frame -/

theorem lengthBytes_fst_le (n : Nat) : (lengthBytes n).1 ≤ 127 := by
  unfold lengthBytes
  by_cases h1 : n ≤ 125
  · rw [if_pos h1]; show n ≤ 127; omega
  · by_cases h2 : n ≤ 65535
    · rw [if_neg h1, if_pos h2]; show 126 ≤ 127; omega
    · rw [if_neg h1, if_neg h2]

theorem lengthBytes_snd_length (n : Nat) :
    (lengthBytes n).2.length = if (lengthBytes n).1 = 126 then 2
      else if (lengthBytes n).1 = 127 then 8 else 0 := by
  unfold lengthBytes
  by_cases h1 : n ≤ 125
  · have a : ¬ n = 126 := by omega
    have b : ¬ n = 127 := by omega
    simp [h1, a, b]
  · by_cases h2 : n ≤ 65535
    · simp [h1, h2]
    · simp [h1, h2]

theorem encodeFrame_byte0 (fin : Bool) (opcode : Nat) (key : Option MaskKey)
    (payload : List Byte) :
    byteAt (encodeFrame fin opcode key payload) 0 = ((if fin then 128 else 0) + opcode) % 256 :=
  rfl

theorem encodeFrame_byte1 (fin : Bool) (opcode : Nat) (key : Option MaskKey)
    (payload : List Byte) :
    byteAt (encodeFrame fin opcode key payload) 1 =
      ((if key.isSome then 128 else 0) + (lengthBytes payload.length).1) % 256 :=
  rfl

theorem encodeFrame_lengthField (fin : Bool) (opcode : Nat) (key : Option MaskKey)
    (payload : List Byte) :
    lengthField (encodeFrame fin opcode key payload) = (lengthBytes payload.length).1 := by
  have h := lengthBytes_fst_le payload.length
  unfold lengthField
  rw [encodeFrame_byte1]
  split <;> omega

theorem encodeFrame_maskFlag (fin : Bool) (opcode : Nat) (key : Option MaskKey)
    (payload : List Byte) :
    maskFlag (encodeFrame fin opcode key payload) = key.isSome := by
  have h := lengthBytes_fst_le payload.length
  unfold maskFlag
  rw [encodeFrame_byte1]
  cases key.isSome
  · simp only [Bool.false_eq_true, ↓reduceIte, decide_eq_false_iff_not]; omega
  · simp only [↓reduceIte, decide_eq_true_eq]; omega

theorem encodeFrame_finBit (fin : Bool) (opcode : Nat) (key : Option MaskKey)
    (payload : List Byte) (hop : opcode < 16) :
    finBit (encodeFrame fin opcode key payload) = fin := by
  unfold finBit
  rw [encodeFrame_byte0]
  cases fin
  · simp only [Bool.false_eq_true, ↓reduceIte, decide_eq_false_iff_not]; omega
  · simp only [↓reduceIte, decide_eq_true_eq]; omega

theorem encodeFrame_opcodeField (fin : Bool) (opcode : Nat) (key : Option MaskKey)
    (payload : List Byte) (hop : opcode < 16) :
    opcodeField (encodeFrame fin opcode key payload) = opcode := by
  unfold opcodeField
  rw [encodeFrame_byte0]
  split <;> omega

theorem encodeFrame_headerSize (fin : Bool) (opcode : Nat) (key : Option MaskKey)
    (payload : List Byte) :
    headerSize (encodeFrame fin opcode key payload) = 2 + (lengthBytes payload.length).2.length := by
  unfold headerSize
  rw [encodeFrame_lengthField, lengthBytes_snd_length]
  split <;> [rfl; (split <;> rfl)]

theorem encodeFrame_declaredLength (fin : Bool) (opcode : Nat) (key : Option MaskKey)
    (payload : List Byte) (hn : payload.length < 2 ^ 64) :
    declaredLength (encodeFrame fin opcode key payload) = payload.length := by
  unfold declaredLength
  rw [encodeFrame_lengthField]
  by_cases h1 : payload.length ≤ 125
  · have e : lengthBytes payload.length = (payload.length, []) := by
      unfold lengthBytes; rw [if_pos h1]
    rw [e, if_neg (by show ¬ payload.length = 126; omega),
      if_neg (by show ¬ payload.length = 127; omega)]
  · by_cases h2 : payload.length ≤ 65535
    · have e : lengthBytes payload.length
          = (126, [byteOfNat (payload.length / 2 ^ 8), byteOfNat payload.length]) := by
        unfold lengthBytes; rw [if_neg h1, if_pos h2]
      have hb : bytesAt (encodeFrame fin opcode key payload) 2 2
          = [payload.length / 2 ^ 8 % 256, payload.length % 256] := by
        unfold encodeFrame; rw [e]; rfl
      rw [e, hb]
      simp only [↓reduceIte, bigEndian, List.foldl]
      omega
    · have e : lengthBytes payload.length
          = (127, [byteOfNat (payload.length / 2 ^ 56), byteOfNat (payload.length / 2 ^ 48),
              byteOfNat (payload.length / 2 ^ 40), byteOfNat (payload.length / 2 ^ 32),
              byteOfNat (payload.length / 2 ^ 24), byteOfNat (payload.length / 2 ^ 16),
              byteOfNat (payload.length / 2 ^ 8), byteOfNat payload.length]) := by
        unfold lengthBytes; rw [if_neg h1, if_neg h2]
      have hb : bytesAt (encodeFrame fin opcode key payload) 2 8
          = [payload.length / 2 ^ 56 % 256, payload.length / 2 ^ 48 % 256,
              payload.length / 2 ^ 40 % 256, payload.length / 2 ^ 32 % 256,
              payload.length / 2 ^ 24 % 256, payload.length / 2 ^ 16 % 256,
              payload.length / 2 ^ 8 % 256, payload.length % 256] := by
        unfold encodeFrame; rw [e]; rfl
      rw [e, hb]
      simp only [bigEndian, List.foldl, ↓reduceIte]
      rw [if_neg (by decide)]
      omega

/-- C1. Round trip of `ParseWebSocketFrame`: for every FIN bit, every opcode
    in 0..15, every payload and every choice of mask (off, or on with any
    4-byte key), decoding the correctly constructed frame succeeds and returns
    the original FIN bit, opcode and payload bytes.  The constructed frame is
    a Go slice, so its length is below `2 ^ 63`. -/
theorem decode_encodeFrame (fin : Bool) (opcode : Nat) (key : Option MaskKey)
    (payload : List Byte) (hop : opcode < 16)
    (hlen : (encodeFrame fin opcode key payload).length < 2 ^ 63) :
    ParseWebSocketFrame (encodeFrame fin opcode key payload) =
      .ok { Fin := fin, Opcode := ((opcode : Nat) : Int), Payload := payload } := by
  have hl2 := lengthBytes_snd_length payload.length
  have hpre : ([byteOfNat ((if fin then 128 else 0) + opcode),
      byteOfNat ((if key.isSome then 128 else 0) + (lengthBytes payload.length).1)]
      ++ (lengthBytes payload.length).2).length = 2 + (lengthBytes payload.length).2.length := by
    simp only [List.length_append, List.length_cons, List.length_nil]
  have hpre10 : 2 + (lengthBytes payload.length).2.length ≤ 10 := by
    rw [hl2]; split <;> [omega; (split <;> omega)]
  have hn : payload.length < 2 ^ 63 := by
    have : payload.length ≤ (encodeFrame fin opcode key payload).length := by
      unfold encodeFrame
      cases key with
      | none => simp only [List.length_append]; omega
      | some k =>
        have hml : ∀ (l : List Byte) (i : Nat), (maskFrom k i l).length = l.length := by
          intro l
          induction l with
          | nil => intro i; rfl
          | cons b bs ih => intro i; simp [maskFrom, ih]
        simp only [List.length_append, hml]; omega
    omega
  have hs : headerSize (encodeFrame fin opcode key payload)
      ≤ (encodeFrame fin opcode key payload).length := by
    rw [encodeFrame_headerSize, ← hpre]
    unfold encodeFrame
    simp only [List.length_append]; omega
  have hp : readPayload (encodeFrame fin opcode key payload)
      (maskFlag (encodeFrame fin opcode key payload))
      ((headerSize (encodeFrame fin opcode key payload) : Nat) : Int)
      (toInt64 (declaredLength (encodeFrame fin opcode key payload))) = .ok payload := by
    rw [encodeFrame_maskFlag, encodeFrame_headerSize,
      encodeFrame_declaredLength fin opcode key payload (by omega), toInt64_of_lt hn, ← hpre]
    cases key with
    | none =>
      have e : encodeFrame fin opcode none payload =
          [byteOfNat ((if fin then 128 else 0) + opcode),
            byteOfNat ((if (none : Option MaskKey).isSome then 128 else 0)
              + (lengthBytes payload.length).1)]
          ++ (lengthBytes payload.length).2 ++ payload ++ [] := by
        unfold encodeFrame; simp
      rw [e] at hlen ⊢
      exact readPayload_unmasked_ok _ payload [] (by rw [hpre]; exact hpre10) hlen
    | some k =>
      have e : encodeFrame fin opcode (some k) payload =
          [byteOfNat ((if fin then 128 else 0) + opcode),
            byteOfNat ((if (some k).isSome then 128 else 0) + (lengthBytes payload.length).1)]
          ++ (lengthBytes payload.length).2 ++ k.toList ++ maskFrom k 0 payload ++ [] := by
        unfold encodeFrame; simp
      rw [e] at hlen ⊢
      exact readPayload_masked_ok k _ payload [] (by rw [hpre]; exact hpre10) hlen
  rw [ParseWebSocketFrame_ok_of hs hp, encodeFrame_finBit _ _ _ _ hop,
    encodeFrame_opcodeField _ _ _ _ hop]

theorem decode_encodeFrame_witness :
    (1 : Nat) < 16 ∧
    (encodeFrame true 1 (some ⟨0x37, 0xfa, 0x21, 0x3d⟩) [72, 101, 108, 108, 111]).length
      < 2 ^ 63 ∧
    encodeFrame true 1 (some ⟨0x37, 0xfa, 0x21, 0x3d⟩) [72, 101, 108, 108, 111]
      = [0x81, 0x85, 0x37, 0xfa, 0x21, 0x3d, 0x7f, 0x9f, 0x4d, 0x51, 0x58] ∧
    ParseWebSocketFrame (encodeFrame true 1 (some ⟨0x37, 0xfa, 0x21, 0x3d⟩)
      [72, 101, 108, 108, 111]) = .ok ⟨true, 1, [72, 101, 108, 108, 111]⟩ :=
  ⟨by decide, by decide, by decide,
    decode_encodeFrame true 1 (some ⟨0x37, 0xfa, 0x21, 0x3d⟩) [72, 101, 108, 108, 111]
      (by decide) (by decide)⟩

/-! ## Claims about a successful decode -/

/-- C5. Whenever `ParseWebSocketFrame` succeeds, the length of the returned
    payload is the length the header declares: the 7-bit field of byte 1 when it
    is at most 125, the unsigned 16-bit big-endian value of bytes 2-3 when it
    is 126, the unsigned 64-bit big-endian value of bytes 2-9 when it is 127. -/
theorem payload_length_eq_declared (data : List Byte) (f : WebSocketFrame)
    (h : ParseWebSocketFrame data = .ok f) :
    f.Payload.length = declaredLength data := by
  obtain ⟨_, _, _, hd, hp⟩ := ParseWebSocketFrame_ok_inv h
  have hr := toInt64_range (declaredLength data)
  have hs : headerSize data ≤ 10 := by unfold headerSize; split <;> [omega; (split <;> omega)]
  obtain ⟨h0, hlen, _, _⟩ := readPayload_ok_inv hs hr.1 hr.2 hp
  rw [hlen, toInt64_nonneg hd h0]

theorem payload_length_eq_declared_witness :
    ParseWebSocketFrame [0x82, 0x7E, 0x00, 0x03, 7, 8, 9, 10] = .ok ⟨true, 2, [7, 8, 9]⟩ ∧
      ([7, 8, 9] : List Byte).length = declaredLength [0x82, 0x7E, 0x00, 0x03, 7, 8, 9, 10] :=
  ⟨by decide, payload_length_eq_declared [0x82, 0x7E, 0x00, 0x03, 7, 8, 9, 10]
    ⟨true, 2, [7, 8, 9]⟩ (by decide)⟩

/-- C6. Whenever `ParseWebSocketFrame` succeeds, with `off` the number of
    header and extended-length bytes (2, 4 or 10): if the mask flag is set,
    payload byte `i` is buffer byte `off + 4 + i` XOR buffer byte
    `off + i mod 4`, for every `i` below the payload length; if the flag is
    unset, payload byte `i` is buffer byte `off + i`. -/
theorem payload_unmasked_cyclically (data : List Byte) (f : WebSocketFrame)
    (h : ParseWebSocketFrame data = .ok f) :
    (headerSize data = 2 ∨ headerSize data = 4 ∨ headerSize data = 10) ∧
    (maskFlag data = true → ∀ i, i < f.Payload.length →
      ∃ b k, data[headerSize data + 4 + i]? = some b ∧
        data[headerSize data + i % 4]? = some k ∧ f.Payload[i]? = some (b ^^^ k)) ∧
    (maskFlag data = false → ∀ i, i < f.Payload.length →
      ∃ b, data[headerSize data + i]? = some b ∧ f.Payload[i]? = some b) := by
  obtain ⟨_, _, _, hd, hp⟩ := ParseWebSocketFrame_ok_inv h
  have hr := toInt64_range (declaredLength data)
  have hs' : headerSize data = 2 ∨ headerSize data = 4 ∨ headerSize data = 10 := by
    unfold headerSize; split <;> [omega; (split <;> omega)]
  have hs : headerSize data ≤ 10 := by omega
  obtain ⟨h0, hlen, hm, hu⟩ := readPayload_ok_inv hs hr.1 hr.2 hp
  refine ⟨hs', ?_, ?_⟩
  · intro hmask i hi
    exact (hm hmask).2 i (by omega)
  · intro hmask i hi
    obtain ⟨hle, hpe⟩ := hu hmask
    have hget : f.Payload[i]? = data[headerSize data + i]? := by
      rw [hpe, List.getElem?_take_of_lt (by omega), List.getElem?_drop]
    have hlt : headerSize data + i < data.length := by omega
    exact ⟨data[headerSize data + i], List.getElem?_eq_getElem hlt,
      by rw [hget, List.getElem?_eq_getElem hlt]⟩

theorem payload_unmasked_cyclically_witness :
    ParseWebSocketFrame [0x81, 0x85, 1, 2, 3, 4, 105, 103, 111, 104, 110] =
        .ok ⟨true, 1, [104, 101, 108, 108, 111]⟩ ∧
    ∃ b k, ([0x81, 0x85, 1, 2, 3, 4, 105, 103, 111, 104, 110] : List Byte)[
        headerSize [0x81, 0x85, 1, 2, 3, 4, 105, 103, 111, 104, 110] + 4 + 4]? = some b ∧
      ([0x81, 0x85, 1, 2, 3, 4, 105, 103, 111, 104, 110] : List Byte)[
        headerSize [0x81, 0x85, 1, 2, 3, 4, 105, 103, 111, 104, 110] + 4 % 4]? = some k ∧
      ([104, 101, 108, 108, 111] : List Byte)[4]? = some (b ^^^ k) :=
  ⟨by decide,
    (payload_unmasked_cyclically [0x81, 0x85, 1, 2, 3, 4, 105, 103, 111, 104, 110]
      ⟨true, 1, [104, 101, 108, 108, 111]⟩ (by decide)).2.1 (by decide) 4 (by decide)⟩

/-- C10. Only the first frame of a buffer is decoded: when
    `ParseWebSocketFrame` succeeds on `b` with frame `f`, it succeeds on `b`
    followed by any bytes `e`, with the same Fin, Opcode and Payload. -/
theorem trailing_bytes_ignored (b e : List Byte) (f : WebSocketFrame)
    (h : ParseWebSocketFrame b = .ok f) :
    ∃ g, ParseWebSocketFrame (b ++ e) = .ok g ∧ g.Fin = f.Fin ∧ g.Opcode = f.Opcode ∧
      g.Payload = f.Payload :=
  ⟨f, ParseWebSocketFrame_append e h, rfl, rfl, rfl⟩

theorem trailing_bytes_ignored_witness :
    ParseWebSocketFrame [0x81, 0x02, 104, 105] = .ok ⟨true, 1, [104, 105]⟩ ∧
    ∃ g, ParseWebSocketFrame ([0x81, 0x02, 104, 105] ++ [0x81, 0x01, 33]) = .ok g ∧
      g.Fin = true ∧ g.Opcode = 1 ∧ g.Payload = [104, 105] :=
  ⟨by decide, trailing_bytes_ignored [0x81, 0x02, 104, 105] [0x81, 0x01, 33]
    ⟨true, 1, [104, 105]⟩ (by decide)⟩

/-! ## Buffers whose declared length cannot overflow -/

theorem frameSize_def (data : List Byte) :
    frameSize data =
      headerSize data + (if maskFlag data then 4 else 0) + declaredLength data := rfl

theorem headerSize_le (data : List Byte) : 2 ≤ headerSize data ∧ headerSize data ≤ 10 := by
  unfold headerSize; split <;> [omega; (split <;> omega)]

theorem extendedLength_short {data : List Byte} (h2 : 2 ≤ data.length)
    (hs : data.length < headerSize data) :
    ∃ msg, extendedLength data ((lengthField data : Nat) : Int) = .error msg := by
  unfold headerSize at hs
  unfold extendedLength
  by_cases h126 : lengthField data = 126
  · have h126i : ((lengthField data : Nat) : Int) = 126 := by omega
    simp only [h126, ↓reduceIte] at hs
    have h4 : len data < 4 := by unfold len; omega
    exact ⟨_, by rw [if_pos h126i, if_pos h4]⟩
  · simp only [h126, ↓reduceIte] at hs
    by_cases h127 : lengthField data = 127
    · have h126i : ¬ ((lengthField data : Nat) : Int) = 126 := by omega
      have h127i : ((lengthField data : Nat) : Int) = 127 := by omega
      simp only [h127, ↓reduceIte] at hs
      have h10 : len data < 10 := by unfold len; omega
      exact ⟨_, by rw [if_neg h126i, if_pos h127i, if_pos h10]⟩
    · simp only [h127, ↓reduceIte] at hs
      omega

theorem unmaskLoop_total (data maskKey : List Byte) (off : Nat) (hk : maskKey.length = 4) :
    ∀ (n i : Nat), off + i + n ≤ data.length → off + i + n < 2 ^ 63 →
      ∃ l, unmaskLoop data maskKey (off : Int) n i = .ok l := by
  intro n
  induction n with
  | zero => intro i _ _; exact ⟨[], rfl⟩
  | succ n ih =>
    intro i hle hlt
    obtain ⟨rest, hrest⟩ := ih (i + 1) (by omega) (by omega)
    have hw : wrap64 ((off : Int) + (i : Int)) = ((off + i : Nat) : Int) := by
      unfold wrap64; omega
    have hi : index data (wrap64 ((off : Int) + (i : Int))) = .ok (data.getD (off + i) 0) := by
      rw [hw]; exact index_of_lt (by omega)
    have e : ((i : Nat) : Int) % 4 = ((i % 4 : Nat) : Int) := by omega
    have hkidx : index maskKey (((i : Nat) : Int) % 4) = .ok (maskKey.getD (i % 4) 0) := by
      rw [e]; exact index_of_lt (by omega)
    exact ⟨(data.getD (off + i) 0 ^^^ maskKey.getD (i % 4) 0) :: rest,
      by simp only [unmaskLoop, hi, hkidx, hrest, Outcome.bind_ok]⟩

theorem readPayload_of_bounded {data : List Byte} {mask : Bool} {off n : Nat}
    (hoff : off ≤ 10) (hn : n < 2 ^ 63 - 14) :
    (data.length < off + (if mask then 4 else 0) + n →
      ∃ msg, readPayload data mask (off : Int) (n : Int) = .error msg) ∧
    (off + (if mask then 4 else 0) + n ≤ data.length →
      ∃ p, readPayload data mask (off : Int) (n : Int) = .ok p) := by
  unfold readPayload
  have hw4 : wrap64 ((off : Int) + 4) = ((off + 4 : Nat) : Int) := by unfold wrap64; omega
  have hwm : wrap64 (((off + 4 : Nat) : Int) + (n : Int)) = ((off + 4 + n : Nat) : Int) := by
    unfold wrap64; omega
  have hwu : wrap64 ((off : Int) + (n : Int)) = ((off + n : Nat) : Int) := by
    unfold wrap64; omega
  cases mask
  · simp only [Bool.false_eq_true, ↓reduceIte, hwu, Nat.add_zero]
    constructor
    · intro h
      have hc : len data < ((off + n : Nat) : Int) := by unfold len; omega
      exact ⟨_, by rw [if_pos hc]⟩
    · intro h
      have hc : ¬ len data < ((off + n : Nat) : Int) := by unfold len; omega
      rw [if_neg hc]
      exact ⟨_, slice_eq_ok.mpr ⟨⟨by omega, by omega, by unfold len; omega⟩, rfl⟩⟩
  · simp only [↓reduceIte, hw4, hwm]
    constructor
    · intro h
      have hc : len data < ((off + 4 + n : Nat) : Int) := by unfold len; omega
      exact ⟨_, by rw [if_pos hc]⟩
    · intro h
      have hc : ¬ len data < ((off + 4 + n : Nat) : Int) := by unfold len; omega
      have hneg : ¬ ((n : Nat) : Int) < 0 := by omega
      have hs : slice data (off : Int) ((off + 4 : Nat) : Int)
          = .ok ((data.take (off + 4)).drop off) :=
        slice_eq_ok.mpr ⟨⟨by omega, by omega, by unfold len; omega⟩,
          by rw [Int.toNat_natCast, Int.toNat_natCast]⟩
      have hkl : ((data.take (off + 4)).drop off).length = 4 := by
        rw [List.length_drop, List.length_take]; omega
      obtain ⟨l, hl⟩ := unmaskLoop_total data _ (off + 4) hkl n 0 (by omega) (by omega)
      refine ⟨l, ?_⟩
      rw [if_neg hc, hs]
      simp only [Outcome.bind_ok, hneg, ↓reduceIte, Int.toNat_natCast]
      exact hl

/-- When the declared payload length is below `2 ^ 63 - 14`, so that no
    addition of the decoder can overflow, `ParseWebSocketFrame` returns an
    error on every buffer shorter than the frame its header calls for, and a
    frame on every other buffer: it does not panic. -/
theorem ParseWebSocketFrame_of_bounded (data : List Byte)
    (hd : declaredLength data < 2 ^ 63 - 14) :
    (data.length < frameSize data → ∃ msg, ParseWebSocketFrame data = .error msg) ∧
    (frameSize data ≤ data.length → ∃ f, ParseWebSocketFrame data = .ok f) := by
  have hhs := headerSize_le data
  obtain ⟨hshort, hlong⟩ := @readPayload_of_bounded data (maskFlag data) _ _
    hhs.2 hd
  rw [frameSize_def]
  constructor
  · intro h
    by_cases h2 : len data < 2
    · exact ⟨_, by unfold ParseWebSocketFrame; rw [if_pos h2]⟩
    · by_cases hs : headerSize data ≤ data.length
      · obtain ⟨msg, hmsg⟩ := hshort h
        refine ⟨msg, ?_⟩
        unfold len at h2
        unfold ParseWebSocketFrame
        have i0 : index data 0 = .ok (data.getD 0 0) := index_of_lt (k := 0) (by omega)
        have i1 : index data 1 = .ok (data.getD 1 0) := index_of_lt (k := 1) (by omega)
        have h2' : ¬ len data < 2 := by unfold len; omega
        simp only [h2', ↓reduceIte, i0, i1, Outcome.bind_ok]
        have hl7 : (data.getD 1 0).val &&& 0x7F = lengthField data := by
          unfold lengthField byteAt; rw [and_7F]
        have hmask : (((data.getD 1 0).val &&& 0x80) != 0) = maskFlag data := by
          unfold maskFlag byteAt; rw [and_80_ne_zero]
        rw [hl7, extendedLength_ok_of hs]
        simp only [Outcome.bind_ok]
        rw [hmask, toInt64_of_lt (by omega), hmsg]
        rfl
      · unfold len at h2
        obtain ⟨msg, hmsg⟩ := @extendedLength_short data (by omega) (by omega)
        refine ⟨msg, ?_⟩
        unfold ParseWebSocketFrame
        have i0 : index data 0 = .ok (data.getD 0 0) := index_of_lt (k := 0) (by omega)
        have i1 : index data 1 = .ok (data.getD 1 0) := index_of_lt (k := 1) (by omega)
        have h2' : ¬ len data < 2 := by unfold len; omega
        simp only [h2', ↓reduceIte, i0, i1, Outcome.bind_ok]
        have hl7 : (data.getD 1 0).val &&& 0x7F = lengthField data := by
          unfold lengthField byteAt; rw [and_7F]
        rw [hl7, hmsg]
        rfl
  · intro h
    obtain ⟨p, hp⟩ := hlong h
    rw [← toInt64_of_lt (show declaredLength data < 2 ^ 63 by omega)] at hp
    exact ⟨_, ParseWebSocketFrame_ok_of (by omega) hp⟩

/-! ## Inputs on which the decoder and the tap fault -/

/-- C2. `ParseWebSocketFrame` can panic: with the 7-bit length 127 and an
    8-byte extended length whose top bit is set, the length is negative as a
    signed 64-bit `int`, the length check passes and `make` faults (mask flag
    set); with the extended length at the maximum signed value, the sum
    `offset + payloadLength` overflows, the length check passes and the slice
    expression faults (mask flag unset). -/
theorem ParseWebSocketFrame_panics_on_huge_length :
    ParseWebSocketFrame [0x81, 0xFF, 0x80, 0, 0, 0, 0, 0, 0, 0, 1, 2, 3, 4]
      = .panic .makesliceLenOutOfRange ∧
    ParseWebSocketFrame [0x81, 0x7F, 0x7F, 0xFF, 0xFF, 0xFF, 0xFF, 0xFF, 0xFF, 0xFF]
      = .panic .sliceBoundsOutOfRange := by
  constructor <;> decide

/-- C3. A buffer shorter than the frame its header calls for, on which
    `ParseWebSocketFrame` does not return an error: ten bytes, mask flag
    unset, 7-bit length 127, extended length `2 ^ 63`.  The length is
    `-2 ^ 63` as a signed 64-bit `int`, the length check passes and the slice
    expression `data[10 : 10 - 2 ^ 63]` faults. -/
theorem ParseWebSocketFrame_short_buffer_panics :
    declaredLength [0x81, 0x7F, 0x80, 0, 0, 0, 0, 0, 0, 0] = 2 ^ 63 ∧
    ([0x81, 0x7F, 0x80, 0, 0, 0, 0, 0, 0, 0] : List Byte).length
      < frameSize [0x81, 0x7F, 0x80, 0, 0, 0, 0, 0, 0, 0] ∧
    ParseWebSocketFrame [0x81, 0x7F, 0x80, 0, 0, 0, 0, 0, 0, 0]
      = .panic .sliceBoundsOutOfRange := by
  refine ⟨by decide, by decide, by decide⟩

theorem WssHandlerLoop_of_decode_error (dstOk : Nat → Bool) (r : ReadResult)
    (rs : List ReadResult) (buf : List Byte) (w : Nat) (out : List Byte) (msg : String)
    (herr : r.err ≠ .other) (hpos : 0 < r.bytes.length)
    (hmsg : ParseWebSocketFrame (readInto buf r.bytes) = .error msg) :
    WssHandlerLoop dstOk (r :: rs) buf w out = .panicked .nilPointerDereference out := by
  unfold WssHandlerLoop
  simp only [herr, ↓reduceIte, hmsg, hpos]

theorem decode_error_of_long_declared (buf : List Byte) (hbuf : buf.length = 32 * 1024) :
    ∃ msg, ParseWebSocketFrame (readInto buf [0x82, 0x7E, 0xFF, 0xFF]) = .error msg := by
  have b1 : byteAt (readInto buf [0x82, 0x7E, 0xFF, 0xFF]) 1 = 126 := rfl
  have b2 : byteAt (readInto buf [0x82, 0x7E, 0xFF, 0xFF]) 2 = 255 := rfl
  have b3 : byteAt (readInto buf [0x82, 0x7E, 0xFF, 0xFF]) (2 + 1) = 255 := rfl
  have hlf : lengthField (readInto buf [0x82, 0x7E, 0xFF, 0xFF]) = 126 := by
    unfold lengthField; rw [b1]
  have hmf : maskFlag (readInto buf [0x82, 0x7E, 0xFF, 0xFF]) = false := by
    unfold maskFlag; rw [b1]; decide
  have hd : declaredLength (readInto buf [0x82, 0x7E, 0xFF, 0xFF]) = 65535 := by
    unfold declaredLength
    rw [hlf, if_pos rfl, bytesAt_two, b2, b3]
    decide
  have hf : frameSize (readInto buf [0x82, 0x7E, 0xFF, 0xFF]) = 65539 := by
    unfold frameSize headerSize
    rw [hd, hlf, hmf, if_pos rfl]
    decide
  have hl : (readInto buf [0x82, 0x7E, 0xFF, 0xFF]).length = 32768 := by
    simp only [readInto, List.length_append, List.length_drop, List.length_cons,
      List.length_nil, hbuf]
  exact (ParseWebSocketFrame_of_bounded _ (by rw [hd]; decide)).1 (by rw [hl, hf]; decide)

/-- C7. The tap does not survive a chunk it cannot decode: after a read of
    the four bytes `0x82 0x7E 0xFF 0xFF` into the zeroed 32 KB buffer, the
    header declares 65535 payload bytes, `ParseWebSocketFrame` returns an
    error, `tt` is nil, and `tt.Payload` faults before `dst.Write` is called:
    nothing is forwarded. -/
theorem WssHandler_crashes_on_undecodable_chunk :
    (∃ msg, ParseWebSocketFrame
      (readInto (List.replicate (32 * 1024) 0) [0x82, 0x7E, 0xFF, 0xFF]) = .error msg) ∧
    WssHandler (fun _ => true) [⟨[0x82, 0x7E, 0xFF, 0xFF], .nil⟩, ⟨[], .eof⟩]
      = .panicked .nilPointerDereference [] := by
  have herr := decode_error_of_long_declared (List.replicate (32 * 1024) 0)
    (List.length_replicate _ _)
  refine ⟨herr, ?_⟩
  obtain ⟨msg, hmsg⟩ := herr
  exact WssHandlerLoop_of_decode_error _ ⟨[0x82, 0x7E, 0xFF, 0xFF], .nil⟩ _ _ _ _ msg
    (by decide) (by decide) hmsg

/-- The tap forwards verbatim as long as decoding succeeds: when every read
    returns a non-empty chunk and no error, the stream then ends, every write
    succeeds and every buffer decodes, the handler returns after writing the
    chunks in the order read. -/
theorem WssHandlerLoop_forwards_decodable (chunks : List (List Byte)) :
    ∀ (buf : List Byte) (w : Nat) (out : List Byte), (∀ c ∈ chunks, 0 < c.length) →
      Decodes chunks buf →
      WssHandlerLoop (fun _ => true)
        (chunks.map (fun c => ⟨c, .nil⟩) ++ [⟨[], .eof⟩]) buf w out
        = .returned (out ++ chunks.flatten) := by
  induction chunks with
  | nil =>
    intro buf w out _ hdec
    simp only [Decodes] at hdec
    simp only [List.map_nil, List.nil_append, WssHandlerLoop, List.flatten_nil, List.append_nil]
    cases hp : ParseWebSocketFrame (readInto buf []) with
    | ok a => simp
    | error m => simp
    | panic f => exact absurd hp (hdec f)
  | cons c cs ih =>
    intro buf w out hpos hdec
    simp only [Decodes] at hdec
    obtain ⟨⟨frame, hframe⟩, hrest⟩ := hdec
    have hc : 0 < c.length := hpos c (by simp)
    have hstep : WssHandlerLoop (fun _ => true)
        (⟨c, .nil⟩ :: (cs.map (fun c => ⟨c, .nil⟩) ++ [⟨[], .eof⟩])) buf w out
        = WssHandlerLoop (fun _ => true) (cs.map (fun c => ⟨c, .nil⟩) ++ [⟨[], .eof⟩])
            (readInto buf c) (w + 1) (out ++ c) := by
      rw [WssHandlerLoop]
      simp only [hframe, hc, ↓reduceIte]
      rw [if_neg (by decide)]
    rw [List.map_cons, List.cons_append, hstep,
      ih _ _ _ (fun x hx => hpos x (by simp [hx])) hrest]
    simp

/-- The tap decodes the whole 32 KB buffer, not the `n` bytes just read:
    after a first read of the two bytes `0x81 0x05`, the frame handed to the
    print statement of line 72 has a payload of five zero bytes that were
    never read, and the two bytes read are forwarded. -/
theorem WssHandler_decodes_unread_bytes :
    ParseWebSocketFrame (readInto (List.replicate (32 * 1024) 0) [0x81, 0x05])
      = .ok ⟨true, 1, [0, 0, 0, 0, 0]⟩ ∧
    WssHandler (fun _ => true) [⟨[0x81, 0x05], .nil⟩, ⟨[], .eof⟩] = .returned [0x81, 0x05] := by
  have hrep : List.replicate (32 * 1024) (0 : Byte)
      = List.replicate 7 0 ++ List.replicate 32761 0 := by
    rw [← List.replicate_add]
  have hread : ∀ rest : List Byte, readInto (List.replicate 7 0 ++ rest) [0x81, 0x05]
      = [0x81, 0x05, 0, 0, 0, 0, 0] ++ rest := fun _ => rfl
  have hbuf : readInto (List.replicate (32 * 1024) 0) [0x81, 0x05]
      = [0x81, 0x05, 0, 0, 0, 0, 0] ++ List.replicate 32761 0 := by
    rw [hrep]
    exact hread _
  have hparse : ParseWebSocketFrame (readInto (List.replicate (32 * 1024) 0) [0x81, 0x05])
      = .ok ⟨true, 1, [0, 0, 0, 0, 0]⟩ := by
    rw [hbuf]
    exact ParseWebSocketFrame_append _ (by decide)
  refine ⟨hparse, ?_⟩
  have hdec : Decodes [[0x81, 0x05]] (List.replicate (32 * 1024) 0) := by
    refine ⟨⟨_, hparse⟩, ?_⟩
    intro f hf
    have hnil : ∀ b : List Byte, readInto b [] = b := fun b => rfl
    rw [hnil, hparse] at hf
    exact absurd hf (by simp)
  exact WssHandlerLoop_forwards_decodable [[0x81, 0x05]] _ 0 [] (by decide) hdec

/-! ## The relay never receives -/

theorem relay_invariant (s : RelayState) (h : RelayReachable s) :
    s.errChan = [] ∧ s.pc ≠ .returned := by
  induction h with
  | init => exact ⟨rfl, by decide⟩
  | step s t _ ht ih =>
    obtain ⟨hc, hp⟩ := ih
    cases ht with
    | goFirst h => exact ⟨hc, by simp⟩
    | goSecond h => exact ⟨hc, by simp⟩
    | firstEnds h => exact ⟨hc, hp⟩
    | secondEnds h => exact ⟨hc, hp⟩
    | receive v rest h hc' => rw [hc] at hc'; exact absurd hc' (by simp)

/-- C8. The call `proxyWebsocket(ctx, dest, source)` does not return once
    both direction tasks have terminated: no reachable state has the caller
    past the receive of line 174; the state where both tasks have finished and
    the caller waits at the receive is reachable, and no step leaves it. -/
theorem proxyWebsocket_never_returns :
    (∀ s, RelayReachable s → s.pc ≠ .returned) ∧
    RelayReachable { pc := .receive, errChan := [], first := .finished, second := .finished } ∧
    ∀ t, ¬ RelayStep
      { pc := .receive, errChan := [], first := .finished, second := .finished } t := by
  refine ⟨fun s h => (relay_invariant s h).2, ?_, ?_⟩
  · have h1 := RelayReachable.step _ _ RelayReachable.init
      (RelayStep.goFirst RelayState.init rfl)
    have h2 := RelayReachable.step _ _ h1 (RelayStep.goSecond _ rfl)
    have h3 := RelayReachable.step _ _ h2 (RelayStep.firstEnds _ rfl)
    exact RelayReachable.step _ _ h3 (RelayStep.secondEnds _ rfl)
  · intro t ht
    cases ht with
    | goFirst h => simp at h
    | goSecond h => simp at h
    | firstEnds h => simp at h
    | secondEnds h => simp at h
    | receive v rest h hc => simp at hc

/-! ## No relay after a failed handshake -/

/-- C9. `websocketHandshake` returns the error when writing the upgrade
    request to the target fails, and when the target's response cannot be
    parsed, and in both cases the response was not written to the client;
    whenever `websocketHandshake` returns an error, `serveWebsocketTLS`
    returns and `serveWebsocket` returns (it reaches the handshake only after
    the hijacker was obtained; without one it panics at line 63 before any
    handshake), and neither has called `proxyWebsocket`. -/
theorem no_relay_on_handshake_failure (env : TunnelEnv) :
    (∀ err, env.reqWriteErr = some err →
      (websocketHandshake env).1 = some err ∧
        Event.writeResponseToClient ∉ (websocketHandshake env).2) ∧
    (∀ err, env.reqWriteErr = none → env.readResponseErr = some err →
      (websocketHandshake env).1 = some err ∧
        Event.writeResponseToClient ∉ (websocketHandshake env).2) ∧
    ((websocketHandshake env).1 ≠ none →
      Event.proxyWebsocket ∉ (serveWebsocket env).2 ∧
      Event.proxyWebsocket ∉ (serveWebsocketTLS env).2 ∧
      (serveWebsocketTLS env).1 = .returned ∧
      (env.dialErr ≠ none ∨ env.hijackSupported = true → (serveWebsocket env).1 = .returned)) := by
  refine ⟨?_, ?_, ?_⟩
  · intro err h
    simp [websocketHandshake, h]
  · intro err h1 h2
    simp [websocketHandshake, h1, h2]
  · intro h
    have hno : Event.proxyWebsocket ∉ (websocketHandshake env).2 := by
      unfold websocketHandshake
      cases env.reqWriteErr <;> cases env.readResponseErr <;> cases env.respWriteErr <;> simp
    cases hh : (websocketHandshake env).1 with
    | none => exact absurd hh h
    | some e =>
      refine ⟨?_, ?_, ?_, ?_⟩
      · unfold serveWebsocket
        cases env.dialErr <;> cases env.hijackSupported <;> cases env.hijackErr <;>
          simp [hh, hno]
      · unfold serveWebsocketTLS
        cases env.dialErr <;> simp [hh, hno]
      · unfold serveWebsocketTLS
        cases env.dialErr <;> simp [hh]
      · unfold serveWebsocket
        cases env.dialErr <;> cases env.hijackSupported <;> cases env.hijackErr <;>
          simp [hh]

theorem no_relay_on_handshake_failure_witness :
    ((websocketHandshake ⟨none, true, none, some "broken pipe", none, none⟩).1
        = some "broken pipe" ∧
      Event.writeResponseToClient ∉
        (websocketHandshake ⟨none, true, none, some "broken pipe", none, none⟩).2) ∧
    ((websocketHandshake ⟨none, true, none, none, some "malformed HTTP response", none⟩).1
        = some "malformed HTTP response" ∧
      Event.writeResponseToClient ∉
        (websocketHandshake ⟨none, true, none, none, some "malformed HTTP response", none⟩).2) ∧
    (Event.proxyWebsocket ∉
        (serveWebsocket ⟨none, true, none, none, some "malformed HTTP response", none⟩).2 ∧
      Event.proxyWebsocket ∉
        (serveWebsocketTLS ⟨none, true, none, none, some "malformed HTTP response", none⟩).2 ∧
      (serveWebsocketTLS ⟨none, true, none, none, some "malformed HTTP response", none⟩).1
        = .returned ∧
      (serveWebsocket ⟨none, true, none, none, some "malformed HTTP response", none⟩).1
        = .returned) :=
  ⟨(no_relay_on_handshake_failure ⟨none, true, none, some "broken pipe", none, none⟩).1
      "broken pipe" rfl,
    (no_relay_on_handshake_failure
      ⟨none, true, none, none, some "malformed HTTP response", none⟩).2.1
      "malformed HTTP response" rfl rfl,
    (fun h => ⟨h.1, h.2.1, h.2.2.1, h.2.2.2 (Or.inr rfl)⟩)
      ((no_relay_on_handshake_failure
        ⟨none, true, none, none, some "malformed HTTP response", none⟩).2.2 (by decide))⟩

/-! ## Upgrade detection: splitting, trimming, folding -/

theorem Split_ne_nil (v : GoString) (sep : Char) : Split v sep ≠ [] := by
  cases v with
  | nil => simp [Split]
  | cons c cs =>
    unfold Split
    split
    · simp
    · split <;> simp

theorem Split_of_not_mem (sep : Char) :
    ∀ t : GoString, sep ∉ t → Split t sep = [t] := by
  intro t
  induction t with
  | nil => intro _; rfl
  | cons c cs ih =>
    intro h
    have hc : ¬ c = sep := fun e => h (by simp [e])
    have hcs : sep ∉ cs := fun e => h (by simp [e])
    simp [Split, hc, ih hcs]

theorem Split_append_sep (sep : Char) (rest : GoString) :
    ∀ t : GoString, sep ∉ t → Split (t ++ sep :: rest) sep = t :: Split rest sep := by
  intro t
  induction t with
  | nil => intro _; simp [Split]
  | cons c cs ih =>
    intro h
    have hc : ¬ c = sep := fun e => h (by simp [e])
    have hcs : sep ∉ cs := fun e => h (by simp [e])
    simp [Split, hc, ih hcs]

theorem Split_joinComma :
    ∀ ts : List GoString, ts ≠ [] → (∀ t ∈ ts, ',' ∉ t) → Split (joinComma ts) ',' = ts := by
  intro ts
  induction ts with
  | nil => intro h; exact absurd rfl h
  | cons t rest ih =>
    intro _ hall
    have ht : ',' ∉ t := hall t (by simp)
    cases rest with
    | nil => simpa [joinComma] using Split_of_not_mem ',' t ht
    | cons t2 rest2 =>
      have hrest : ∀ x ∈ t2 :: rest2, ',' ∉ x := fun x hx => hall x (by simp [hx])
      simp only [joinComma]
      rw [Split_append_sep ',' _ t ht, ih (by simp) hrest]

theorem joinComma_cons (t : GoString) (ts : List GoString) (h : ts ≠ []) :
    joinComma (t :: ts) = t ++ ',' :: joinComma ts := by
  cases ts with
  | nil => exact absurd rfl h
  | cons a as => rfl

theorem joinComma_Split :
    ∀ v : GoString, joinComma (Split v ',') = v ∧ ∀ t ∈ Split v ',', ',' ∉ t := by
  intro v
  induction v with
  | nil => simp [Split, joinComma]
  | cons c cs ih =>
    obtain ⟨hj, hall⟩ := ih
    by_cases hc : c = ','
    · have e : Split (c :: cs) ',' = [] :: Split cs ',' := by simp [Split, hc]
      rw [e, joinComma_cons _ _ (Split_ne_nil cs ','), hj]
      refine ⟨by simp [hc], ?_⟩
      intro t ht
      rcases List.mem_cons.mp ht with h | h
      · simp [h]
      · exact hall t h
    · cases hs : Split cs ',' with
      | nil => exact absurd hs (Split_ne_nil cs ',')
      | cons t0 ts0 =>
        have e : Split (c :: cs) ',' = (c :: t0) :: ts0 := by simp [Split, hc, hs]
        rw [hs] at hj hall
        rw [e]
        constructor
        · cases ts0 with
          | nil =>
            simp only [joinComma] at hj ⊢
            rw [hj]
          | cons a as =>
            simp only [joinComma] at hj ⊢
            rw [← hj]; rfl
        · intro t ht
          rcases List.mem_cons.mp ht with h | h
          · rw [h]
            have := hall t0 (by simp)
            intro hm
            rcases List.mem_cons.mp hm with h1 | h1
            · exact hc h1.symm
            · exact this h1
          · exact hall t (by simp [h])

theorem mem_Split_iff (v t : GoString) :
    t ∈ Split v ',' ↔
      ∃ ts : List GoString, ts ≠ [] ∧ (∀ x ∈ ts, ',' ∉ x) ∧ joinComma ts = v ∧ t ∈ ts := by
  constructor
  · intro h
    exact ⟨Split v ',', Split_ne_nil v ',', (joinComma_Split v).2, (joinComma_Split v).1, h⟩
  · rintro ⟨ts, hne, hall, hj, ht⟩
    rw [← hj, Split_joinComma ts hne hall]; exact ht

theorem TrimSpace_decompose (s : GoString) :
    ∃ a b, s = a ++ TrimSpace s ++ b ∧ (∀ c ∈ a, isSpace c = true) ∧
      (∀ c ∈ b, isSpace c = true) := by
  refine ⟨s.takeWhile isSpace, ((s.dropWhile isSpace).reverse.takeWhile isSpace).reverse,
    ?_, ?_, ?_⟩
  · unfold TrimSpace
    rw [List.append_assoc, ← List.reverse_append, List.takeWhile_append_dropWhile,
      List.reverse_reverse, List.takeWhile_append_dropWhile]
  · intro c hc
    exact List.mem_takeWhile_imp hc
  · intro c hc
    exact List.mem_takeWhile_imp (List.mem_reverse.mp hc)

theorem dropWhile_append_of_all (p : Char → Bool) (l : GoString) :
    ∀ a : GoString, (∀ c ∈ a, p c = true) → (a ++ l).dropWhile p = l.dropWhile p := by
  intro a
  induction a with
  | nil => intro _; rfl
  | cons c cs ih =>
    intro h
    have hc : p c = true := h c (by simp)
    simp only [List.cons_append, List.dropWhile_cons, hc, ↓reduceIte]
    exact ih (fun x hx => h x (by simp [hx]))

theorem dropWhile_of_head (p : Char → Bool) (c : Char) (l : GoString) (h : p c = false) :
    (c :: l).dropWhile p = c :: l := by
  simp [List.dropWhile_cons, h]

theorem TrimSpace_of_core (a u b : GoString) (ha : ∀ c ∈ a, isSpace c = true)
    (hb : ∀ c ∈ b, isSpace c = true) (hne : u ≠ [])
    (hhead : ∀ c ∈ u.head?, isSpace c = false) (hlast : ∀ c ∈ u.getLast?, isSpace c = false) :
    TrimSpace (a ++ u ++ b) = u := by
  unfold TrimSpace
  rw [List.append_assoc, dropWhile_append_of_all isSpace _ a ha]
  have h1 : (u ++ b).dropWhile isSpace = u ++ b := by
    cases u with
    | nil => exact absurd rfl hne
    | cons c cs => exact dropWhile_of_head isSpace c _ (hhead c (by simp))
  rw [h1, List.reverse_append,
    dropWhile_append_of_all isSpace _ b.reverse (fun c hc => hb c (List.mem_reverse.mp hc))]
  have h2 : u.reverse.dropWhile isSpace = u.reverse := by
    cases hr : u.reverse with
    | nil => rfl
    | cons c cs =>
      apply dropWhile_of_head
      apply hlast
      rw [List.getLast?_eq_head?_reverse, hr]; simp
  rw [h2, List.reverse_reverse]

theorem foldKey_of_isSpace (c : Char) (h : isSpace c = true) : foldKey c = c := by
  unfold isSpace at h
  unfold foldKey
  simp only [Bool.or_eq_true, Bool.and_eq_true, decide_eq_true_eq] at h
  have h1 : ¬ (65 ≤ c.toNat ∧ c.toNat ≤ 90) := by omega
  have h2 : ¬ c.toNat = 0x212A := by omega
  have h3 : ¬ c.toNat = 0x17F := by omega
  rw [if_neg h1, if_neg h2, if_neg h3]

theorem forall₂_foldKey_iff :
    ∀ u w : GoString, List.Forall₂ (fun c d => foldKey c = foldKey d) u w ↔
      u.map foldKey = w.map foldKey := by
  intro u
  induction u with
  | nil =>
    intro w
    cases w with
    | nil => simp
    | cons d ds => simp
  | cons c cs ih =>
    intro w
    cases w with
    | nil => simp
    | cons d ds => simp [ih ds]

theorem EqualFold_TrimSpace_iff (value s : GoString) (hne : value ≠ [])
    (hhead : ∀ c ∈ value.head?, isSpace (foldKey c) = false)
    (hlast : ∀ c ∈ value.getLast?, isSpace (foldKey c) = false) :
    EqualFold value (TrimSpace s) = true ↔
      ∃ a u b, s = a ++ u ++ b ∧ (∀ c ∈ a, isSpace c = true) ∧ (∀ c ∈ b, isSpace c = true) ∧
        List.Forall₂ (fun c d => foldKey c = foldKey d) u value := by
  unfold EqualFold
  rw [beq_iff_eq]
  constructor
  · intro h
    obtain ⟨a, b, hs, ha, hb⟩ := TrimSpace_decompose s
    exact ⟨a, TrimSpace s, b, hs, ha, hb, (forall₂_foldKey_iff _ _).mpr h.symm⟩
  · rintro ⟨a, u, b, hs, ha, hb, hf⟩
    have hmap := (forall₂_foldKey_iff _ _).mp hf
    have hune : u ≠ [] := by
      intro hu
      rw [hu] at hmap
      exact hne (List.map_eq_nil_iff.mp hmap.symm)
    have notSpace : ∀ c d : Char, foldKey c = foldKey d → isSpace (foldKey d) = false →
        isSpace c = false := by
      intro c d hcd hd
      by_contra hc
      have hc1 : isSpace c = true := by simpa using hc
      rw [← hcd, foldKey_of_isSpace c hc1, hc1] at hd
      exact absurd hd (by simp)
    have hh : ∀ c ∈ u.head?, isSpace c = false := by
      intro c hc
      cases u with
      | nil => simp at hc
      | cons c0 cs =>
        cases value with
        | nil => simp at hmap
        | cons d0 ds =>
          simp only [List.head?_cons, Option.mem_def, Option.some.injEq] at hc
          simp only [List.map_cons, List.cons.injEq] at hmap
          rw [← hc]
          exact notSpace c0 d0 hmap.1 (hhead d0 (by simp))
    have hl : ∀ c ∈ u.getLast?, isSpace c = false := by
      intro c hc
      have hrev : u.reverse.map foldKey = value.reverse.map foldKey := by
        rw [List.map_reverse, List.map_reverse, hmap]
      rw [List.getLast?_eq_head?_reverse] at hc
      cases hur : u.reverse with
      | nil => rw [hur] at hc; simp at hc
      | cons c0 cs =>
        cases hvr : value.reverse with
        | nil => rw [hur, hvr] at hrev; simp at hrev
        | cons d0 ds =>
          rw [hur, hvr] at hrev
          rw [hur] at hc
          simp only [List.head?_cons, Option.mem_def, Option.some.injEq] at hc
          simp only [List.map_cons, List.cons.injEq] at hrev
          rw [← hc]
          apply notSpace c0 d0 hrev.1
          apply hlast
          rw [List.getLast?_eq_head?_reverse, hvr]; simp
    rw [hs, TrimSpace_of_core a u b ha hb hune hh hl, hmap]

theorem headerContains_iff (header : Header) (name : String) (value : GoString)
    (hne : value ≠ []) (hhead : ∀ c ∈ value.head?, isSpace (foldKey c) = false)
    (hlast : ∀ c ∈ value.getLast?, isSpace (foldKey c) = false) :
    headerContains header name value = true ↔ ∃ v ∈ header name, HasToken v value := by
  unfold headerContains HasToken
  simp only [List.any_eq_true]
  constructor
  · rintro ⟨v, hv, s, hs, he⟩
    obtain ⟨ts, h1, h2, h3, h4⟩ := (mem_Split_iff v s).mp hs
    exact ⟨v, hv, ts, h1, h2, h3, s, h4,
      (EqualFold_TrimSpace_iff value s hne hhead hlast).mp he⟩
  · rintro ⟨v, hv, ts, h1, h2, h3, s, h4, h5⟩
    exact ⟨v, hv, s, (mem_Split_iff v s).mpr ⟨ts, h1, h2, h3, h4⟩,
      (EqualFold_TrimSpace_iff value s hne hhead hlast).mpr h5⟩

/-- C4. `isWebSocketRequest` is true exactly when some value of the
    `Connection` header has a comma-separated token that, trimmed of
    surrounding whitespace, equals `upgrade` case-insensitively, and some value
    of the `Upgrade` header has such a token equal to `websocket`; every value
    of each header is scanned.  `Connection: Upgrade, keep-alive` with
    `Upgrade: websocket` gives true, `Connection: keep-alive` alone gives
    false, `Connection: UPGRADE` with `Upgrade: WebSocket` gives true. -/
theorem isWebSocketRequest_iff :
    (∀ header : Header, isWebSocketRequest header = true ↔
      (∃ v ∈ header "Connection", HasToken v "upgrade".toList) ∧
      (∃ v ∈ header "Upgrade", HasToken v "websocket".toList)) ∧
    isWebSocketRequest exampleUpgrade = true ∧
    isWebSocketRequest exampleKeepAlive = false ∧
    isWebSocketRequest exampleCaseVaried = true := by
  refine ⟨?_, by decide, by decide, by decide⟩
  intro header
  unfold isWebSocketRequest
  rw [Bool.and_eq_true,
    headerContains_iff header "Connection" "upgrade".toList (by decide) (by decide) (by decide),
    headerContains_iff header "Upgrade" "websocket".toList (by decide) (by decide) (by decide)]

end goproxy
